import Mathlib

/-!
# Dictionaries of `hashes.hpp`

A shallow embedding of the four dictionaries of `hashes.hpp` (`naive_dict`,
`chain_dict`, `lp_dict`, `cuckoo_dict`) and of the polynomial hash functions
they use, followed by theorems about them.

Conventions of the embedding.

* `uint32_t` keys and values are natural numbers; arithmetic that can wrap is
  written with an explicit `% 4294967296`.  The template parameter `T` is
  `uint32_t`, the instantiation of `benchmark.cpp`.
* `INT_MIN` only ever meets `uint32_t` keys (in comparisons and in
  `entry<T>(INT_MIN, ...)`), where it is converted to `2147483648`.
* `std::vector` and `std::list` are `List`; an iterator is the index of the
  element it points to, `end()` being the length.
* A `throw` is `Except.error`; the mutated object is returned in `Except.ok`.
* `while` loops recurse on a fuel argument and keep the loop variables of the
  source (`i`, `count`, `key`, `val`); running out of fuel is `none`.  Loops
  that the source bounds are proved to never run out of the fuel they are
  given; the loop of `lp_dict::set` has no bound in the source, so its fuel is
  a parameter of the model and "does not terminate" is "`none` for every fuel".
* Capacities are taken to fit in `int` (`benchmark.cpp` parses them with
  `stoi`), so that the `int` indices of the source hold `hash % capacity_`
  unchanged.
-/

namespace hashes

/-- The exceptions thrown by the dictionaries. -/
inductive Exn where
  | out_of_range
  | length_error
deriving DecidableEq, Repr

deriving instance DecidableEq for Except

/-- The value `INT_MIN` after conversion to `uint32_t`: the key of an empty slot. -/
def INT_MIN : Nat := 2147483648

/-- One entry in a dictionary (`entry<uint32_t>`). -/
structure entry where
  key : Nat
  value : Nat
deriving DecidableEq, Repr

/-- The entry `entry<T>(INT_MIN, std::move(0))` that fills empty slots. -/
def tmp : entry := ⟨INT_MIN, 0⟩

/-- Element access `v[i]` of a vector of entries. -/
def at_ (v : List entry) (i : Nat) : entry := v.getD i tmp

/-- The function `h(x) = a0 + a1*x` of `poly2_hash_func::hash` in `uint32_t` arithmetic. -/
def poly2_hash_func.hash (key : Nat) : Nat :=
  (10 + (20 * key) % 4294967296) % 4294967296

/-- Multiplication of two `uint32_t`. -/
def mul32 (a b : Nat) : Nat := (a * b) % 4294967296

/-- Addition of two `uint32_t`. -/
def add32 (a b : Nat) : Nat := (a + b) % 4294967296

/-- The function `h(x) = a0 + a1*x + a2*x^2 + a3*x^3 + a4*x^4` of
`poly5_hash_func::hash`, every product and sum taken in `uint32_t` arithmetic
in the order in which C++ parses the expression. -/
def poly5_hash_func.hash (key : Nat) : Nat :=
  add32 (add32 (add32 (add32 5 (mul32 6 key)) (mul32 (mul32 7 key) key))
    (mul32 (mul32 (mul32 8 key) key) key))
    (mul32 (mul32 (mul32 (mul32 9 key) key) key) key)

/-- Halving loop behind `log2_floor`. -/
def log2_floor_aux : Nat → Nat → Nat
  | 0, _ => 0
  | fuel + 1, n => if 2 ≤ n then log2_floor_aux fuel (n / 2) + 1 else 0

/-- Modelled from the spec: `limit = floor(log2(capacity))`; the source obtains it
from the C library call `log2(capacity)` truncated to `int`. -/
def log2_floor (n : Nat) : Nat := log2_floor_aux n n

/-- The hash `std::hash<int>()(key)` of libstdc++ and libc++ applied to a
`uint32_t` key: the key is converted to `int` and then to `size_t`, which is the
identity below `2^31` and sign extension to 64 bits from there on. -/
def std_hash_id (key : Nat) : Nat :=
  if key < 2147483648 then key else 18446744069414584320 + key

/-! ## cuckoo_dict -/

/-- Data members of `cuckoo_dict`. -/
structure cuckoo_dict where
  hashTable1 : List entry
  hashTable2 : List entry
  capacity_ : Nat
  limit_ : Nat
deriving DecidableEq, Repr

namespace cuckoo_dict

/-- The constructor `cuckoo_dict(size_t capacity)`. -/
def new (capacity : Nat) : cuckoo_dict :=
  { hashTable1 := List.replicate capacity tmp
    hashTable2 := List.replicate capacity tmp
    capacity_ := capacity
    limit_ := log2_floor capacity }

/-- The member `hash_cuckoo_1`; `std_hash` stands for `std::hash<int>()` applied to the
key converted to `int`, which the C++ standard leaves to the implementation. -/
def hash_cuckoo_1 (std_hash : Nat → Nat) (d : cuckoo_dict) (key : Nat) : Nat :=
  std_hash key % d.capacity_

/-- The member `hash_cuckoo_2`. -/
def hash_cuckoo_2 (std_hash : Nat → Nat) (d : cuckoo_dict) (key : Nat) : Nat :=
  (std_hash key / 2) % d.capacity_

/-- The method `cuckoo_dict::search`. -/
def search (std_hash : Nat → Nat) (d : cuckoo_dict) (key : Nat) : Except Exn Nat :=
  let hashValue1 := hash_cuckoo_1 std_hash d key
  let hashValue2 := hash_cuckoo_2 std_hash d key
  if (at_ d.hashTable1 hashValue1).key = key then
    .ok (at_ d.hashTable1 hashValue1).value
  else if (at_ d.hashTable2 hashValue2).key = key then
    .ok (at_ d.hashTable2 hashValue2).value
  else
    .error .out_of_range

/-- The loop `while (count < limit_)` of `cuckoo_dict::set`, with its variables
`key`, `val` and `count`. -/
def set_loop (std_hash : Nat → Nat) :
    Nat → cuckoo_dict → Nat → Nat → Nat → Option cuckoo_dict
  | 0, _, _, _, _ => none
  | fuel + 1, d, key, val, count =>
    if count < d.limit_ then
      let hashValue1 := hash_cuckoo_1 std_hash d key
      if (at_ d.hashTable1 hashValue1).key = INT_MIN then
        some { d with hashTable1 := d.hashTable1.set hashValue1 ⟨key, val⟩ }
      else
        let tmp_key := (at_ d.hashTable1 hashValue1).key
        let tmp_val := (at_ d.hashTable1 hashValue1).value
        let d1 := { d with hashTable1 := d.hashTable1.set hashValue1 ⟨key, val⟩ }
        let hashValue2 := hash_cuckoo_2 std_hash d1 tmp_key
        if (at_ d1.hashTable2 hashValue2).key = INT_MIN then
          some { d1 with hashTable2 := d1.hashTable2.set hashValue2 ⟨tmp_key, tmp_val⟩ }
        else
          let tmp_key_2 := (at_ d1.hashTable2 hashValue2).key
          let tmp_val_2 := (at_ d1.hashTable2 hashValue2).value
          let d2 := { d1 with hashTable2 := d1.hashTable2.set hashValue2 ⟨tmp_key, tmp_val⟩ }
          set_loop std_hash fuel d2 tmp_key_2 tmp_val_2 (count + 1)
    else
      some d

/-- The method `cuckoo_dict::set`: the loop is entered with `count = 0` and can test its
condition at most `limit_ + 1` times. -/
def set (std_hash : Nat → Nat) (d : cuckoo_dict) (key val : Nat) : Option cuckoo_dict :=
  set_loop std_hash (d.limit_ + 1) d key val 0

/-- The method `cuckoo_dict::remove`. -/
def remove (std_hash : Nat → Nat) (d : cuckoo_dict) (key : Nat) : Except Exn cuckoo_dict :=
  let hashValue1 := hash_cuckoo_1 std_hash d key
  let hashValue2 := hash_cuckoo_2 std_hash d key
  if (at_ d.hashTable1 hashValue1).key = key then
    .ok { d with hashTable1 := d.hashTable1.set hashValue1 tmp }
  else if (at_ d.hashTable2 hashValue2).key = key then
    .ok { d with hashTable2 := d.hashTable2.set hashValue2 tmp }
  else
    .error .out_of_range

end cuckoo_dict

/-! ## naive_dict -/

/-- Data members of `naive_dict`. -/
structure naive_dict where
  entries_ : List entry
deriving DecidableEq, Repr

namespace naive_dict

/-- The constructor `naive_dict(size_t capacity)`, which ignores its argument. -/
def new (_capacity : Nat) : naive_dict := { entries_ := [] }

/-- The member `search_iterator`: `std::find_if` over `entries_`. -/
def search_iterator (d : naive_dict) (key : Nat) : Nat :=
  d.entries_.findIdx (fun entry => entry.key == key)

/-- The method `naive_dict::search`. -/
def search (d : naive_dict) (key : Nat) : Except Exn Nat :=
  let iter := search_iterator d key
  if iter ≠ d.entries_.length then
    .ok (at_ d.entries_ iter).value
  else
    .error .out_of_range

/-- The method `naive_dict::set`. -/
def set (d : naive_dict) (key val : Nat) : naive_dict :=
  let iter := search_iterator d key
  if iter ≠ d.entries_.length then
    { entries_ := d.entries_.set iter ⟨(at_ d.entries_ iter).key, val⟩ }
  else
    { entries_ := d.entries_ ++ [⟨key, val⟩] }

/-- The method `naive_dict::remove`. -/
def remove (d : naive_dict) (key : Nat) : Except Exn naive_dict :=
  let iter := search_iterator d key
  if iter ≠ d.entries_.length then
    .ok { entries_ := d.entries_.eraseIdx iter }
  else
    .error .out_of_range

end naive_dict

/-! ## chain_dict -/

/-- Data members of `chain_dict`. -/
structure chain_dict where
  chainingTable : List (List entry)
  capacity_ : Nat
deriving DecidableEq, Repr

namespace chain_dict

/-- The constructor `chain_dict(size_t capacity)`. -/
def new (capacity : Nat) : chain_dict :=
  { chainingTable := List.replicate capacity []
    capacity_ := capacity }

/-- The member `search_iterator`: `std::find_if` over the bucket `hashValue`. -/
def search_iterator (d : chain_dict) (key hashValue : Nat) : Nat :=
  (d.chainingTable.getD hashValue []).findIdx (fun entry => entry.key == key)

/-- The method `chain_dict::search`. -/
def search (d : chain_dict) (key : Nat) : Except Exn Nat :=
  let hashValue := poly2_hash_func.hash key % d.capacity_
  let iter := search_iterator d key hashValue
  if iter ≠ (d.chainingTable.getD hashValue []).length then
    .ok (at_ (d.chainingTable.getD hashValue []) iter).value
  else
    .error .out_of_range

/-- The method `chain_dict::set`. -/
def set (d : chain_dict) (key val : Nat) : chain_dict :=
  let hashValue := poly2_hash_func.hash key % d.capacity_
  { d with chainingTable :=
      d.chainingTable.set hashValue (d.chainingTable.getD hashValue [] ++ [⟨key, val⟩]) }

/-- The method `chain_dict::remove`. -/
def remove (d : chain_dict) (key : Nat) : Except Exn chain_dict :=
  let hashValue := poly2_hash_func.hash key % d.capacity_
  let iter := search_iterator d key hashValue
  if iter ≠ (d.chainingTable.getD hashValue []).length then
    .ok { d with chainingTable :=
            d.chainingTable.set hashValue ((d.chainingTable.getD hashValue []).eraseIdx iter) }
  else
    .error .out_of_range

end chain_dict

/-! ## lp_dict -/

/-- Data members of `lp_dict`. -/
structure lp_dict where
  capacity_ : Nat
  lpTable : List entry
deriving DecidableEq, Repr

namespace lp_dict

/-- The constructor `lp_dict(size_t capacity)`. -/
def new (capacity : Nat) : lp_dict :=
  { capacity_ := capacity
    lpTable := List.replicate capacity tmp }

/-- The `while` loop that `lp_dict::search` and `lp_dict::remove` share statement for
statement, with its variables `i` and `count`; it yields the index at which the
loop is left, or the exception thrown inside it. -/
def bounded_loop (d : lp_dict) (key : Nat) : Nat → Nat → Nat → Option (Except Exn Nat)
  | 0, _, _ => none
  | fuel + 1, i, count =>
    if (at_ d.lpTable i).key ≠ INT_MIN ∧ (at_ d.lpTable i).key ≠ key then
      let count := count + 1
      let i := (i + 1) % d.capacity_
      if count > d.capacity_ then
        some (.error .out_of_range)
      else
        bounded_loop d key fuel i count
    else
      some (.ok i)

/-- The method `lp_dict::search`; its loop tests its condition at most
`capacity_ + 1` times. -/
def search (d : lp_dict) (key : Nat) : Option (Except Exn Nat) :=
  let hashValue := poly5_hash_func.hash key % d.capacity_
  match bounded_loop d key (d.capacity_ + 1) hashValue 0 with
  | none => none
  | some (.error e) => some (.error e)
  | some (.ok i) =>
    if (at_ d.lpTable i).key ≠ INT_MIN then
      some (.ok (at_ d.lpTable i).value)
    else
      some (.error .out_of_range)

/-- The `while` loop of `lp_dict::set`, with its variable `i`. -/
def set_loop (d : lp_dict) (key : Nat) : Nat → Nat → Option Nat
  | 0, _ => none
  | fuel + 1, i =>
    if (at_ d.lpTable i).key ≠ INT_MIN ∧ (at_ d.lpTable i).key ≠ key then
      set_loop d key fuel ((i + 1) % d.capacity_)
    else
      some i

/-- The method `lp_dict::set`, run with `fuel` tests of the loop condition. -/
def set (fuel : Nat) (d : lp_dict) (key val : Nat) : Option lp_dict :=
  let hashValue := poly5_hash_func.hash key % d.capacity_
  match set_loop d key fuel hashValue with
  | none => none
  | some i => some { d with lpTable := d.lpTable.set i ⟨key, val⟩ }

/-- The method `lp_dict::remove`. -/
def remove (d : lp_dict) (key : Nat) : Option (Except Exn lp_dict) :=
  let hashValue := poly5_hash_func.hash key % d.capacity_
  match bounded_loop d key (d.capacity_ + 1) hashValue 0 with
  | none => none
  | some (.error e) => some (.error e)
  | some (.ok i) =>
    if (at_ d.lpTable i).key ≠ INT_MIN then
      some (.ok { d with lpTable := d.lpTable.set i tmp })
    else
      some (.ok d)

end lp_dict

/-- The condition of the three `while` loops of `lp_dict`: slot `i` holds neither the
sentinel nor `key`. -/
def lp_dict.busy (d : lp_dict) (key i : Nat) : Prop :=
  (at_ d.lpTable i).key ≠ INT_MIN ∧ (at_ d.lpTable i).key ≠ key

instance (d : lp_dict) (key i : Nat) : Decidable (lp_dict.busy d key i) := by
  unfold lp_dict.busy
  exact inferInstance

/-- The state of an `lp_dict` in the insert phase, after `set(x, f x)` for the keys `ins`:
the table has `capacity_` slots, as many of them hold a key as there are keys in
`ins`, every key of `ins` is found with its value, and the slots hold no other key. -/
def lp_dict.filled (d : lp_dict) (f : Nat → Nat) (ins : List Nat) : Prop :=
  d.lpTable.length = d.capacity_ ∧
  d.lpTable.countP (fun e => e.key != INT_MIN) = ins.length ∧
  (∀ x ∈ ins, lp_dict.search d x = some (.ok (f x))) ∧
  (∀ e ∈ d.lpTable, e.key ≠ INT_MIN → e.key ∈ ins)

/-! ## Sequences of calls -/

/-- A call that changes a dictionary. -/
inductive Op where
  | set (key val : Nat)
  | remove (key : Nat)
deriving DecidableEq, Repr

/-- The keys passed to `set` in a sequence of calls. -/
def set_keys : List Op → List Nat
  | [] => []
  | Op.set key _ :: ops => key :: set_keys ops
  | Op.remove _ :: ops => set_keys ops

/-- The insert phase of `benchmark.cpp`: `dict->set(x, x+1)` for each `x`, the sum
being a `uint32_t`. -/
def insert_ops (insert : List Nat) : List Op :=
  insert.map (fun x => Op.set x ((x + 1) % 4294967296))

/-- One call on a `naive_dict`; a caller that catches the exception of `remove`
goes on with the dictionary as it was. -/
def naive_dict.step (d : naive_dict) : Op → naive_dict
  | Op.set key val => d.set key val
  | Op.remove key =>
    match d.remove key with
    | .ok d1 => d1
    | .error _ => d

/-- A sequence of calls on a `naive_dict`. -/
def naive_dict.run (d : naive_dict) (ops : List Op) : naive_dict :=
  ops.foldl naive_dict.step d

/-- One call on a `chain_dict`. -/
def chain_dict.step (d : chain_dict) : Op → chain_dict
  | Op.set key val => d.set key val
  | Op.remove key =>
    match d.remove key with
    | .ok d1 => d1
    | .error _ => d

/-- A sequence of calls on a `chain_dict`. -/
def chain_dict.run (d : chain_dict) (ops : List Op) : chain_dict :=
  ops.foldl chain_dict.step d

/-- One call on an `lp_dict`, every `set` run with `fuel`. -/
def lp_dict.step (fuel : Nat) (d : lp_dict) : Op → Option lp_dict
  | Op.set key val => lp_dict.set fuel d key val
  | Op.remove key =>
    match d.remove key with
    | none => none
    | some (.ok d1) => some d1
    | some (.error _) => some d

/-- A sequence of calls on an `lp_dict`; `none` when one of them runs out of fuel. -/
def lp_dict.run (fuel : Nat) : lp_dict → List Op → Option lp_dict
  | d, [] => some d
  | d, op :: ops =>
    match lp_dict.step fuel d op with
    | none => none
    | some d1 => lp_dict.run fuel d1 ops

/-- One call on a `cuckoo_dict`. -/
def cuckoo_dict.step (std_hash : Nat → Nat) (d : cuckoo_dict) : Op → Option cuckoo_dict
  | Op.set key val => cuckoo_dict.set std_hash d key val
  | Op.remove key =>
    match cuckoo_dict.remove std_hash d key with
    | .ok d1 => some d1
    | .error _ => some d

/-- A sequence of calls on a `cuckoo_dict`. -/
def cuckoo_dict.run (std_hash : Nat → Nat) : cuckoo_dict → List Op → Option cuckoo_dict
  | d, [] => some d
  | d, op :: ops =>
    match cuckoo_dict.step std_hash d op with
    | none => none
    | some d1 => cuckoo_dict.run std_hash d1 ops

/-- The outcome of `std::find_if` for `key` over a list of entries, as `search` uses it:
the value of the first entry with this key, or `std::out_of_range` when the iterator is
`end()`. -/
def find_value (l : List entry) (key : Nat) : Except Exn Nat :=
  if l.findIdx (fun entry => entry.key == key) ≠ l.length then
    .ok (at_ l (l.findIdx (fun entry => entry.key == key))).value
  else
    .error .out_of_range

/-- The `j`-th slot of the probe sequence of `key` in an `lp_dict`: the start index
`poly5_hash_func().hash(key) % capacity_` advanced `j` times by `i = (i+1) % capacity_`. -/
def lp_dict.probe (d : lp_dict) (key j : Nat) : Nat :=
  (poly5_hash_func.hash key % d.capacity_ + j) % d.capacity_

/-! ## Lemmas on vectors of entries -/

theorem log2_floor_aux_eq : ∀ fuel n, n ≤ fuel → log2_floor_aux fuel n = Nat.log 2 n := by
  intro fuel
  induction fuel with
  | zero =>
    intro n h
    have : n = 0 := by omega
    subst this
    simp [log2_floor_aux]
  | succ fuel ih =>
    intro n h
    simp only [log2_floor_aux]
    by_cases h2 : 2 ≤ n
    · rw [if_pos h2, ih (n / 2) (by omega), Nat.log_of_one_lt_of_le (by omega) h2]
    · rw [if_neg h2, Nat.log_of_lt (by omega)]

/-- The model of `limit_` is the floor of the binary logarithm. -/
theorem log2_floor_eq_log (n : Nat) : log2_floor n = Nat.log 2 n :=
  log2_floor_aux_eq n n (Nat.le_refl n)

theorem log2_floor_pos (n : Nat) (h : 2 ≤ n) : 1 ≤ log2_floor n := by
  unfold log2_floor
  cases n with
  | zero => omega
  | succ m =>
    simp only [log2_floor_aux]
    rw [if_pos h]
    omega

theorem at_mem_or_tmp (v : List entry) (i : Nat) : at_ v i ∈ v ∨ at_ v i = tmp := by
  unfold at_
  by_cases h : i < v.length
  · left
    rw [List.getD_eq_getElem v tmp h]
    exact List.getElem_mem h
  · right
    exact List.getD_eq_default v tmp (Nat.le_of_not_lt h)

theorem at_lt_length (v : List entry) (i : Nat) (h : (at_ v i).key ≠ INT_MIN) :
    i < v.length := by
  by_contra hlt
  apply h
  unfold at_
  rw [List.getD_eq_default v tmp (Nat.le_of_not_lt hlt)]
  rfl

theorem at_set_self (v : List entry) (i : Nat) (e : entry) (h : i < v.length) :
    at_ (v.set i e) i = e := by
  unfold at_
  rw [List.getD_eq_getElem _ tmp (by simpa using h)]
  simp

theorem at_set_ne (v : List entry) (i j : Nat) (e : entry) (h : i ≠ j) :
    at_ (v.set i e) j = at_ v j := by
  unfold at_
  simp [List.getD_eq_getElem?_getD, List.getElem?_set, h]

theorem at_replicate (n i : Nat) : at_ (List.replicate n tmp) i = tmp := by
  unfold at_
  by_cases h : i < n
  · rw [List.getD_eq_getElem _ tmp (by simpa using h)]
    simp
  · exact List.getD_eq_default _ tmp (by simpa using Nat.le_of_not_lt h)

/-! ## Lemmas on `std::find_if` over entries -/

theorem find_absent (l : List entry) (k : Nat) (h : ∀ e ∈ l, e.key ≠ k) :
    l.findIdx (fun entry => entry.key == k) = l.length := by
  rw [List.findIdx_eq_length]
  intro e he
  simpa using h e he

theorem find_found (l : List entry) (k : Nat)
    (h : l.findIdx (fun entry => entry.key == k) ≠ l.length) :
    l.findIdx (fun entry => entry.key == k) < l.length ∧
    (at_ l (l.findIdx (fun entry => entry.key == k))).key = k ∧
    at_ l (l.findIdx (fun entry => entry.key == k)) ∈ l := by
  have hlt : l.findIdx (fun entry => entry.key == k) < l.length :=
    lt_of_le_of_ne (List.findIdx_le_length _) h
  have hk := List.findIdx_getElem (p := fun entry : entry => entry.key == k) (w := hlt)
  unfold at_
  rw [List.getD_eq_getElem l tmp hlt]
  exact ⟨hlt, by simpa using hk, List.getElem_mem hlt⟩

theorem find_present (l : List entry) (k : Nat) (h : ∃ e ∈ l, e.key = k) :
    l.findIdx (fun entry => entry.key == k) ≠ l.length := by
  obtain ⟨e, he, hek⟩ := h
  have : l.findIdx (fun entry => entry.key == k) < l.length := by
    rw [List.findIdx_lt_length]
    exact ⟨e, he, by simpa using hek⟩
  omega

/-- Overwriting the value of an entry keeps the keys of the list. -/
theorem keys_set_value (l : List entry) (i val : Nat) :
    (l.set i ⟨(at_ l i).key, val⟩).map entry.key = l.map entry.key := by
  apply List.ext_getElem
  · simp
  · intro j h1 h2
    simp only [List.getElem_map, List.getElem_set]
    by_cases hij : i = j
    · subst hij
      have hlt : i < l.length := by simpa using h2
      rw [if_pos rfl]
      unfold at_
      rw [List.getD_eq_getElem l tmp hlt]
    · rw [if_neg hij]

theorem keys_eraseIdx (l : List entry) (i : Nat) :
    (l.eraseIdx i).map entry.key = (l.map entry.key).eraseIdx i := by
  induction l generalizing i with
  | nil => rfl
  | cons a l ih =>
    cases i with
    | zero => rfl
    | succ i => simp [List.eraseIdx, ih]

/-- Erasing the first entry with key `k` from a list with distinct keys leaves no entry
with key `k`. -/
theorem erase_found_absent (l : List entry) (k : Nat) (hnd : (l.map entry.key).Nodup)
    (h : l.findIdx (fun entry => entry.key == k) < l.length) :
    ∀ e ∈ l.eraseIdx (l.findIdx (fun entry => entry.key == k)), e.key ≠ k := by
  intro e he hek
  obtain ⟨hlt, hk, _⟩ := find_found l k (by omega)
  unfold at_ at hk
  rw [List.getD_eq_getElem l tmp hlt] at hk
  rw [List.mem_eraseIdx_iff_getElem] at he
  obtain ⟨i, hi, hne, hie⟩ := he
  have hi2 : i < (l.map entry.key).length := by simpa using hi
  have hlt2 : l.findIdx (fun entry => entry.key == k) < (l.map entry.key).length := by
    simpa using hlt
  have h1 : (l.map entry.key)[i] = k := by
    rw [List.getElem_map, hie, hek]
  have h2 : (l.map entry.key)[l.findIdx (fun entry => entry.key == k)] = k := by
    rw [List.getElem_map, hk]
  exact hne ((hnd.getElem_inj_iff).mp (h1.trans h2.symm))

/-! ## Lemmas on the loops of lp_dict -/

theorem lp_bounded_loop_succ (d : lp_dict) (key fuel i count : Nat) :
    lp_dict.bounded_loop d key (fuel + 1) i count =
      if lp_dict.busy d key i then
        (if count + 1 > d.capacity_ then some (.error Exn.out_of_range)
         else lp_dict.bounded_loop d key fuel ((i + 1) % d.capacity_) (count + 1))
      else some (.ok i) := rfl

theorem lp_set_loop_succ (d : lp_dict) (key fuel i : Nat) :
    lp_dict.set_loop d key (fuel + 1) i =
      if lp_dict.busy d key i then lp_dict.set_loop d key fuel ((i + 1) % d.capacity_)
      else some i := rfl

/-- The bounded loop never runs out of `capacity_ + 1` units of fuel, throws nothing but
`std::out_of_range`, and is left only at a slot that is not busy. -/
theorem lp_bounded_loop_total (d : lp_dict) (key : Nat) :
    ∀ fuel i count, count ≤ d.capacity_ → d.capacity_ < fuel + count →
      lp_dict.bounded_loop d key fuel i count = some (.error Exn.out_of_range) ∨
      ∃ p, lp_dict.bounded_loop d key fuel i count = some (.ok p) ∧ ¬ lp_dict.busy d key p := by
  intro fuel
  induction fuel with
  | zero => intro i count h1 h2; omega
  | succ fuel ih =>
    intro i count h1 h2
    rw [lp_bounded_loop_succ]
    by_cases hb : lp_dict.busy d key i
    · rw [if_pos hb]
      by_cases hc : count + 1 > d.capacity_
      · rw [if_pos hc]; exact Or.inl rfl
      · rw [if_neg hc]
        exact ih _ _ (by omega) (by omega)
    · rw [if_neg hb]
      exact Or.inr ⟨i, rfl, hb⟩

/-- A loop left at `p` is left at a slot that is not busy. -/
theorem lp_bounded_loop_exit (d : lp_dict) (key p : Nat) :
    ∀ fuel i count, lp_dict.bounded_loop d key fuel i count = some (.ok p) →
      ¬ lp_dict.busy d key p := by
  intro fuel
  induction fuel with
  | zero => intro i count h; simp [lp_dict.bounded_loop] at h
  | succ fuel ih =>
    intro i count h
    rw [lp_bounded_loop_succ] at h
    by_cases hb : lp_dict.busy d key i
    · rw [if_pos hb] at h
      by_cases hc : count + 1 > d.capacity_
      · rw [if_pos hc] at h; simp at h
      · rw [if_neg hc] at h
        exact ih _ _ h
    · rw [if_neg hb] at h
      simp only [Option.some.injEq, Except.ok.injEq] at h
      rw [← h]; exact hb

/-- Writing into a slot `q` that is not busy for `key`, and that is not the slot `p` at
which the loop for `key` is left, does not change where the loop is left. -/
theorem lp_bounded_loop_set_other (d : lp_dict) (key p q : Nat) (e : entry)
    (hq : ¬ lp_dict.busy d key q) (hpq : p ≠ q) :
    ∀ fuel i count, lp_dict.bounded_loop d key fuel i count = some (.ok p) →
      lp_dict.bounded_loop { d with lpTable := d.lpTable.set q e } key fuel i count
        = some (.ok p) := by
  intro fuel
  induction fuel with
  | zero => intro i count h; simp [lp_dict.bounded_loop] at h
  | succ fuel ih =>
    intro i count h
    rw [lp_bounded_loop_succ] at h
    rw [lp_bounded_loop_succ]
    by_cases hb : lp_dict.busy d key i
    · have hiq : q ≠ i := by
        intro hqi; rw [hqi] at hq; exact hq hb
      have hb2 : lp_dict.busy { d with lpTable := d.lpTable.set q e } key i := by
        unfold lp_dict.busy at hb ⊢
        simpa [at_set_ne _ _ _ _ hiq] using hb
      rw [if_pos hb] at h
      rw [if_pos hb2]
      by_cases hc : count + 1 > d.capacity_
      · rw [if_pos hc] at h; simp at h
      · rw [if_neg hc] at h
        rw [if_neg hc]
        exact ih _ _ h
    · rw [if_neg hb] at h
      simp only [Option.some.injEq, Except.ok.injEq] at h
      have hiq : q ≠ i := by rw [h]; exact fun hh => hpq hh.symm
      have hb2 : ¬ lp_dict.busy { d with lpTable := d.lpTable.set q e } key i := by
        unfold lp_dict.busy at hb ⊢
        simpa [at_set_ne _ _ _ _ hiq] using hb
      rw [if_neg hb2, h]

/-- Writing an entry that is not busy for `key` into the slot `p` at which the loop is
left does not move the exit. -/
theorem lp_bounded_loop_set_exit (d : lp_dict) (key p : Nat) (e : entry)
    (he : e.key = INT_MIN ∨ e.key = key) (hp : p < d.lpTable.length) :
    ∀ fuel i count, lp_dict.bounded_loop d key fuel i count = some (.ok p) →
      lp_dict.bounded_loop { d with lpTable := d.lpTable.set p e } key fuel i count
        = some (.ok p) := by
  intro fuel
  induction fuel with
  | zero => intro i count h; simp [lp_dict.bounded_loop] at h
  | succ fuel ih =>
    intro i count h
    have hexit := lp_bounded_loop_exit d key p _ _ _ h
    rw [lp_bounded_loop_succ] at h
    rw [lp_bounded_loop_succ]
    by_cases hb : lp_dict.busy d key i
    · have hiq : p ≠ i := by
        intro hqi; rw [hqi] at hexit; exact hexit hb
      have hb2 : lp_dict.busy { d with lpTable := d.lpTable.set p e } key i := by
        unfold lp_dict.busy at hb ⊢
        simpa [at_set_ne _ _ _ _ hiq] using hb
      rw [if_pos hb] at h
      rw [if_pos hb2]
      by_cases hc : count + 1 > d.capacity_
      · rw [if_pos hc] at h; simp at h
      · rw [if_neg hc] at h
        rw [if_neg hc]
        exact ih _ _ h
    · rw [if_neg hb] at h
      simp only [Option.some.injEq, Except.ok.injEq] at h
      have hb2 : ¬ lp_dict.busy { d with lpTable := d.lpTable.set p e } key i := by
        unfold lp_dict.busy
        rw [h]
        simp only [at_set_self _ _ _ hp]
        rcases he with he | he <;> simp [he]
      rw [if_neg hb2, h]

theorem lp_set_loop_exit (d : lp_dict) (key p : Nat) :
    ∀ fuel i, lp_dict.set_loop d key fuel i = some p → ¬ lp_dict.busy d key p := by
  intro fuel
  induction fuel with
  | zero => intro i h; simp [lp_dict.set_loop] at h
  | succ fuel ih =>
    intro i h
    rw [lp_set_loop_succ] at h
    by_cases hb : lp_dict.busy d key i
    · rw [if_pos hb] at h; exact ih _ h
    · rw [if_neg hb] at h
      simp only [Option.some.injEq] at h
      rw [← h]; exact hb

theorem lp_set_loop_lt (d : lp_dict) (key p : Nat) (hcap : 0 < d.capacity_) :
    ∀ fuel i, i < d.capacity_ → lp_dict.set_loop d key fuel i = some p → p < d.capacity_ := by
  intro fuel
  induction fuel with
  | zero => intro i _ h; simp [lp_dict.set_loop] at h
  | succ fuel ih =>
    intro i hi h
    rw [lp_set_loop_succ] at h
    by_cases hb : lp_dict.busy d key i
    · rw [if_pos hb] at h; exact ih _ (Nat.mod_lt _ hcap) h
    · rw [if_neg hb] at h
      simp only [Option.some.injEq] at h
      rw [← h]; exact hi

/-- More fuel does not change the slot at which the loop of `set` is left. -/
theorem lp_set_loop_mono (d : lp_dict) (key p : Nat) :
    ∀ fuel i m, lp_dict.set_loop d key fuel i = some p →
      lp_dict.set_loop d key (fuel + m) i = some p := by
  intro fuel
  induction fuel with
  | zero => intro i m h; simp [lp_dict.set_loop] at h
  | succ fuel ih =>
    intro i m h
    rw [lp_set_loop_succ] at h
    rw [show fuel + 1 + m = (fuel + m) + 1 by omega, lp_set_loop_succ]
    by_cases hb : lp_dict.busy d key i
    · rw [if_pos hb] at h
      rw [if_pos hb]
      exact ih _ m h
    · rw [if_neg hb] at h
      rw [if_neg hb]
      exact h

/-- A loop of `set` that is out of fuel has seen a busy slot at each of its probes. -/
theorem lp_set_loop_none (d : lp_dict) (key : Nat) :
    ∀ fuel i, i < d.capacity_ → lp_dict.set_loop d key fuel i = none →
      ∀ j, j < fuel → lp_dict.busy d key ((i + j) % d.capacity_) := by
  intro fuel
  induction fuel with
  | zero => intro i _ _ j hj; omega
  | succ fuel ih =>
    intro i hi h j hj
    rw [lp_set_loop_succ] at h
    by_cases hb : lp_dict.busy d key i
    · rw [if_pos hb] at h
      cases j with
      | zero => simpa [Nat.mod_eq_of_lt hi] using hb
      | succ j =>
        have hcap : 0 < d.capacity_ := by omega
        have := ih _ (Nat.mod_lt _ hcap) h j (by omega)
        have e : ((i + 1) % d.capacity_ + j) % d.capacity_ = (i + (j + 1)) % d.capacity_ := by
          rw [Nat.add_mod, Nat.mod_mod, ← Nat.add_mod]
          congr 1; omega
        rw [e] at this
        exact this
    · rw [if_neg hb] at h
      simp at h

/-- With every slot busy the loop of `set` is out of fuel whatever the fuel. -/
theorem lp_set_loop_all_busy (d : lp_dict) (key : Nat)
    (hall : ∀ i, i < d.capacity_ → lp_dict.busy d key i) :
    ∀ fuel i, i < d.capacity_ → lp_dict.set_loop d key fuel i = none := by
  intro fuel
  induction fuel with
  | zero => intro i _; rfl
  | succ fuel ih =>
    intro i hi
    rw [lp_set_loop_succ, if_pos (hall i hi)]
    exact ih _ (Nat.mod_lt _ (by omega))

/-- The probe sequence started at `i` reaches every slot within `capacity_` probes. -/
theorem probe_covers (capacity i s : Nat) (hi : i < capacity) (hs : s < capacity) :
    ∃ j, j < capacity ∧ (i + j) % capacity = s := by
  by_cases h : i ≤ s
  · refine ⟨s - i, by omega, ?_⟩
    rw [show i + (s - i) = s by omega]
    exact Nat.mod_eq_of_lt hs
  · refine ⟨s + capacity - i, by omega, ?_⟩
    rw [show i + (s + capacity - i) = s + capacity by omega]
    rw [Nat.add_mod_right]
    exact Nat.mod_eq_of_lt hs

/-- With a slot that is not busy, the loop of `set` is left within `capacity_` probes. -/
theorem lp_set_loop_terminates (d : lp_dict) (key s i : Nat)
    (hs : s < d.capacity_) (hfree : ¬ lp_dict.busy d key s) (hi : i < d.capacity_) :
    ∃ p, lp_dict.set_loop d key d.capacity_ i = some p := by
  cases h : lp_dict.set_loop d key d.capacity_ i with
  | some p => exact ⟨p, rfl⟩
  | none =>
    exfalso
    obtain ⟨j, hj, hjs⟩ := probe_covers d.capacity_ i s hi hs
    have := lp_set_loop_none d key _ i hi h j hj
    rw [hjs] at this
    exact hfree this

/-- After `set` has written `key` at the slot `p` where its loop was left, the bounded
loop for `key` is left at `p` as well. -/
theorem lp_bounded_loop_after_set (d : lp_dict) (key p : Nat) (e : entry)
    (he : e.key = key) (hp : p < d.lpTable.length) :
    ∀ fuel i count m, lp_dict.set_loop d key fuel i = some p →
      count + fuel ≤ d.capacity_ + 1 →
      lp_dict.bounded_loop { d with lpTable := d.lpTable.set p e } key (fuel + m) i count
        = some (.ok p) := by
  intro fuel
  induction fuel with
  | zero => intro i count m h; simp [lp_dict.set_loop] at h
  | succ fuel ih =>
    intro i count m h hc
    have hexit := lp_set_loop_exit d key p _ _ h
    rw [lp_set_loop_succ] at h
    rw [show fuel + 1 + m = (fuel + m) + 1 by omega, lp_bounded_loop_succ]
    by_cases hb : lp_dict.busy d key i
    · have hiq : p ≠ i := by
        intro hqi; rw [hqi] at hexit; exact hexit hb
      have hb2 : lp_dict.busy { d with lpTable := d.lpTable.set p e } key i := by
        unfold lp_dict.busy at hb ⊢
        simpa [at_set_ne _ _ _ _ hiq] using hb
      rw [if_pos hb] at h
      rw [if_pos hb2]
      have hfuel : 0 < fuel := by
        cases fuel with
        | zero => simp [lp_dict.set_loop] at h
        | succ n => omega
      rw [if_neg (by show ¬ (count + 1 > d.capacity_); omega)]
      exact ih _ _ m h (by omega)
    · rw [if_neg hb] at h
      simp only [Option.some.injEq] at h
      have hb2 : ¬ lp_dict.busy { d with lpTable := d.lpTable.set p e } key i := by
        unfold lp_dict.busy
        rw [h]
        simp only [at_set_self _ _ _ hp]
        simp [he]
      rw [if_neg hb2, h]

/-! ## Lemmas on the methods of lp_dict -/

theorem lp_search_of_loop_ok (d : lp_dict) (key i : Nat)
    (h : lp_dict.bounded_loop d key (d.capacity_ + 1)
      (poly5_hash_func.hash key % d.capacity_) 0 = some (.ok i)) :
    lp_dict.search d key =
      if (at_ d.lpTable i).key ≠ INT_MIN then some (.ok (at_ d.lpTable i).value)
      else some (.error Exn.out_of_range) := by
  simp only [lp_dict.search, h]

theorem lp_search_of_loop_error (d : lp_dict) (key : Nat) (e : Exn)
    (h : lp_dict.bounded_loop d key (d.capacity_ + 1)
      (poly5_hash_func.hash key % d.capacity_) 0 = some (.error e)) :
    lp_dict.search d key = some (.error e) := by
  simp only [lp_dict.search, h]

theorem lp_remove_of_loop_ok (d : lp_dict) (key i : Nat)
    (h : lp_dict.bounded_loop d key (d.capacity_ + 1)
      (poly5_hash_func.hash key % d.capacity_) 0 = some (.ok i)) :
    lp_dict.remove d key =
      if (at_ d.lpTable i).key ≠ INT_MIN then
        some (.ok { d with lpTable := d.lpTable.set i tmp })
      else some (.ok d) := by
  simp only [lp_dict.remove, h]

theorem lp_remove_of_loop_error (d : lp_dict) (key : Nat) (e : Exn)
    (h : lp_dict.bounded_loop d key (d.capacity_ + 1)
      (poly5_hash_func.hash key % d.capacity_) 0 = some (.error e)) :
    lp_dict.remove d key = some (.error e) := by
  simp only [lp_dict.remove, h]

/-- The outcome of `lp_dict::search`, read off its loop. -/
theorem lp_search_cases (d : lp_dict) (key : Nat) :
    lp_dict.search d key = some (.error Exn.out_of_range) ∨
    ∃ p, lp_dict.bounded_loop d key (d.capacity_ + 1)
          (poly5_hash_func.hash key % d.capacity_) 0 = some (.ok p) ∧
      (at_ d.lpTable p).key = key ∧ key ≠ INT_MIN ∧
      lp_dict.search d key = some (.ok (at_ d.lpTable p).value) := by
  rcases lp_bounded_loop_total d key (d.capacity_ + 1)
      (poly5_hash_func.hash key % d.capacity_) 0 (Nat.zero_le _) (by omega) with h | ⟨p, h, hb⟩
  · exact Or.inl (lp_search_of_loop_error d key _ h)
  · rw [lp_search_of_loop_ok d key p h]
    by_cases hs : (at_ d.lpTable p).key ≠ INT_MIN
    · right
      refine ⟨p, h, ?_, ?_, by rw [if_pos hs]⟩
      · unfold lp_dict.busy at hb
        by_contra hne
        exact hb ⟨hs, hne⟩
      · unfold lp_dict.busy at hb
        intro hk
        apply hb
        refine ⟨hs, ?_⟩
        rw [hk]; exact hs
    · left
      rw [if_neg hs]

/-- The outcome of `lp_dict::remove`, read off its loop. -/
theorem lp_remove_cases (d : lp_dict) (key : Nat) :
    lp_dict.remove d key = some (.error Exn.out_of_range) ∨
    ∃ p, lp_dict.bounded_loop d key (d.capacity_ + 1)
          (poly5_hash_func.hash key % d.capacity_) 0 = some (.ok p) ∧
      (((at_ d.lpTable p).key ≠ INT_MIN ∧
          lp_dict.remove d key = some (.ok { d with lpTable := d.lpTable.set p tmp })) ∨
       ((at_ d.lpTable p).key = INT_MIN ∧ lp_dict.remove d key = some (.ok d))) := by
  rcases lp_bounded_loop_total d key (d.capacity_ + 1)
      (poly5_hash_func.hash key % d.capacity_) 0 (Nat.zero_le _) (by omega) with h | ⟨p, h, _⟩
  · exact Or.inl (lp_remove_of_loop_error d key _ h)
  · right
    refine ⟨p, h, ?_⟩
    rw [lp_remove_of_loop_ok d key p h]
    by_cases hs : (at_ d.lpTable p).key ≠ INT_MIN
    · left; exact ⟨hs, by rw [if_pos hs]⟩
    · right; exact ⟨by simpa using hs, by rw [if_neg hs]⟩

/-- A key that no slot holds is not found. -/
theorem lp_search_absent (d : lp_dict) (k : Nat)
    (habs : ∀ e ∈ d.lpTable, e.key ≠ k) :
    lp_dict.search d k = some (.error Exn.out_of_range) := by
  rcases lp_search_cases d k with h | ⟨p, _, hk, hs, _⟩
  · exact h
  · exfalso
    rcases at_mem_or_tmp d.lpTable p with hm | ht
    · exact habs _ hm hk
    · rw [ht] at hk
      exact hs hk.symm

/-- After a `remove(k)` that returned, `search(k)` throws, whatever the table. -/
theorem lp_search_after_remove (d d1 : lp_dict) (k : Nat)
    (h : lp_dict.remove d k = some (.ok d1)) :
    lp_dict.search d1 k = some (.error Exn.out_of_range) := by
  rcases lp_remove_cases d k with he | ⟨p, hl, ⟨hs, hr⟩ | ⟨hs, hr⟩⟩
  · rw [he] at h; simp at h
  · rw [hr] at h
    simp only [Option.some.injEq, Except.ok.injEq] at h
    subst h
    have hp := at_lt_length _ _ hs
    have hl2 := lp_bounded_loop_set_exit d k p tmp (Or.inl rfl) hp _ _ _ hl
    rw [lp_search_of_loop_ok _ k p hl2]
    simp only [at_set_self _ _ _ hp]
    simp [tmp]
  · rw [hr] at h
    simp only [Option.some.injEq, Except.ok.injEq] at h
    subst h
    rw [lp_search_of_loop_ok _ k p hl]
    simp [hs]

theorem lp_set_of_loop (fuel : Nat) (d : lp_dict) (key val i : Nat)
    (h : lp_dict.set_loop d key fuel (poly5_hash_func.hash key % d.capacity_) = some i) :
    lp_dict.set fuel d key val = some { d with lpTable := d.lpTable.set i ⟨key, val⟩ } := by
  simp only [lp_dict.set, h]

theorem lp_set_of_loop_none (fuel : Nat) (d : lp_dict) (key val : Nat)
    (h : lp_dict.set_loop d key fuel (poly5_hash_func.hash key % d.capacity_) = none) :
    lp_dict.set fuel d key val = none := by
  simp only [lp_dict.set, h]

/-- A table with fewer keys than slots has a slot that holds the sentinel. -/
theorem exists_sentinel_slot (v : List entry)
    (h : v.countP (fun e => e.key != INT_MIN) < v.length) :
    ∃ s, s < v.length ∧ (at_ v s).key = INT_MIN := by
  have hne : ¬ ∀ a ∈ v, (fun e : entry => e.key != INT_MIN) a = true := by
    intro hall
    have := List.countP_eq_length.mpr hall
    omega
  push_neg at hne
  obtain ⟨a, ha, hpa⟩ := hne
  obtain ⟨s, hs, hsa⟩ := List.getElem_of_mem ha
  refine ⟨s, hs, ?_⟩
  unfold at_
  rw [List.getD_eq_getElem v tmp hs, hsa]
  simpa using hpa

/-- One `set` of the insert phase with a key that is new and a table that has room. -/
theorem lp_set_fresh (d : lp_dict) (f : Nat → Nat) (ins : List Nat) (y : Nat)
    (hinv : lp_dict.filled d f ins) (hy : y ∉ ins) (hys : y ≠ INT_MIN)
    (hroom : ins.length < d.capacity_) :
    ∃ d1, lp_dict.set d.capacity_ d y (f y) = some d1 ∧ d1.capacity_ = d.capacity_ ∧
      lp_dict.filled d1 f (ins ++ [y]) := by
  obtain ⟨hlen, hcount, hfound, hkeys⟩ := hinv
  have hcap : 0 < d.capacity_ := by omega
  obtain ⟨s, hs, hsk⟩ := exists_sentinel_slot d.lpTable (by omega)
  have hfree : ¬ lp_dict.busy d y s := fun hb => hb.1 hsk
  obtain ⟨p, hloop⟩ := lp_set_loop_terminates d y s
    (poly5_hash_func.hash y % d.capacity_) (by omega) hfree (Nat.mod_lt _ hcap)
  have hp : p < d.lpTable.length := by
    rw [hlen]
    exact lp_set_loop_lt d y p hcap _ _ (Nat.mod_lt _ hcap) hloop
  have hexit := lp_set_loop_exit d y p _ _ hloop
  have hpk : (at_ d.lpTable p).key = INT_MIN := by
    by_contra hne
    have hk : (at_ d.lpTable p).key = y := by
      by_contra hne2
      exact hexit ⟨hne, hne2⟩
    rcases at_mem_or_tmp d.lpTable p with hm | ht
    · exact hy (hk ▸ hkeys _ hm hne)
    · rw [ht] at hne; exact hne rfl
  refine ⟨_, lp_set_of_loop _ d y (f y) p hloop, rfl, ?_, ?_, ?_, ?_⟩
  · simpa using hlen
  · show List.countP _ (d.lpTable.set p ⟨y, f y⟩) = (ins ++ [y]).length
    rw [List.countP_set _ _ _ _ hp, hcount]
    have h1 : (d.lpTable[p]).key = INT_MIN := by
      have := hpk
      unfold at_ at this
      rwa [List.getD_eq_getElem d.lpTable tmp hp] at this
    simp [h1, hys]
  · intro x hx
    rcases List.mem_append.mp hx with hx | hx
    · have hfx := hfound x hx
      rcases lp_search_cases d x with he | ⟨q, hl, hqk, hxs, hsv⟩
      · rw [he] at hfx; simp at hfx
      · rw [hsv] at hfx
        simp only [Option.some.injEq, Except.ok.injEq] at hfx
        have hpq : q ≠ p := by
          intro hqp
          rw [hqp, hpk] at hqk
          exact hxs hqk.symm
        have hl2 := lp_bounded_loop_set_other d x q p ⟨y, f y⟩
          (fun hb => hb.1 hpk) hpq _ _ _ hl
        rw [lp_search_of_loop_ok _ x q hl2]
        simp only [at_set_ne _ _ _ _ (Ne.symm hpq)]
        rw [if_pos (by rw [hqk]; exact hxs), hfx]
    · have hxy : x = y := by simpa using hx
      subst hxy
      have hl2 := lp_bounded_loop_after_set d x p ⟨x, f x⟩ rfl hp
        d.capacity_ _ 0 1 hloop (by omega)
      rw [lp_search_of_loop_ok _ x p hl2]
      simp only [at_set_self _ _ _ hp]
      rw [if_pos hys]
  · intro e he hne
    rcases List.mem_or_eq_of_mem_set he with hm | heq
    · exact List.mem_append.mpr (Or.inl (hkeys e hm hne))
    · rw [heq]; simp

/-- The insert phase on an `lp_dict`: every `set` is left within `capacity_` probes as
long as the keys are distinct and no more than the slots. -/
theorem lp_run_insert (f : Nat → Nat) :
    ∀ (rest ins : List Nat) (d : lp_dict), lp_dict.filled d f ins →
      (ins ++ rest).Nodup → (∀ x ∈ rest, x ≠ INT_MIN) →
      (ins ++ rest).length ≤ d.capacity_ →
      ∃ d1, lp_dict.run d.capacity_ d (rest.map (fun x => Op.set x (f x))) = some d1 ∧
        d1.capacity_ = d.capacity_ ∧ lp_dict.filled d1 f (ins ++ rest) := by
  intro rest
  induction rest with
  | nil =>
    intro ins d hinv _ _ _
    exact ⟨d, rfl, rfl, by simpa using hinv⟩
  | cons y rest ih =>
    intro ins d hinv hnd hs hlen
    have hy : y ∉ ins := by
      intro hmem
      have := List.nodup_append.mp hnd
      exact this.2.2 hmem (List.mem_cons_self _ _)
    have hroom : ins.length < d.capacity_ := by
      simp only [List.length_append, List.length_cons] at hlen
      omega
    obtain ⟨d1, hset, hc1, hinv1⟩ :=
      lp_set_fresh d f ins y hinv hy (hs y (List.mem_cons_self _ _)) hroom
    have hassoc : ins ++ [y] ++ rest = ins ++ y :: rest := by simp
    obtain ⟨d2, hrun, hc2, hinv2⟩ := ih (ins ++ [y]) d1 hinv1 (by rw [hassoc]; exact hnd)
      (fun x hx => hs x (List.mem_cons_of_mem _ hx)) (by rw [hassoc, hc1]; exact hlen)
    refine ⟨d2, ?_, by rw [hc2, hc1], by rw [← hassoc]; exact hinv2⟩
    simp only [List.map_cons, lp_dict.run, lp_dict.step, hset]
    rw [← hc1]; exact hrun

/-- Every entry of an `lp_dict` after one call was there before, is the sentinel entry, or
is the one `set`. -/
theorem lp_mem_step (fuel : Nat) (d d1 : lp_dict) (op : Op) (e : entry)
    (hstep : lp_dict.step fuel d op = some d1) (he : e ∈ d1.lpTable) :
    e ∈ d.lpTable ∨ e = tmp ∨ ∃ val, op = Op.set e.key val := by
  cases op with
  | set key val =>
    simp only [lp_dict.step] at hstep
    cases hl : lp_dict.set_loop d key fuel (poly5_hash_func.hash key % d.capacity_) with
    | none => rw [lp_set_of_loop_none _ _ _ _ hl] at hstep; simp at hstep
    | some i =>
      rw [lp_set_of_loop _ _ _ _ i hl] at hstep
      simp only [Option.some.injEq] at hstep
      subst hstep
      rcases List.mem_or_eq_of_mem_set he with hm | heq
      · exact Or.inl hm
      · right; right; subst heq; exact ⟨val, rfl⟩
  | remove key =>
    simp only [lp_dict.step] at hstep
    rcases lp_remove_cases d key with hr | ⟨p, _, ⟨_, hr⟩ | ⟨_, hr⟩⟩
    · rw [hr] at hstep
      simp only [Option.some.injEq] at hstep
      subst hstep
      exact Or.inl he
    · rw [hr] at hstep
      simp only [Option.some.injEq] at hstep
      subst hstep
      rcases List.mem_or_eq_of_mem_set he with hm | heq
      · exact Or.inl hm
      · exact Or.inr (Or.inl heq)
    · rw [hr] at hstep
      simp only [Option.some.injEq] at hstep
      subst hstep
      exact Or.inl he

/-- A key that is never passed to `set` is never held. -/
theorem lp_absent_run (k : Nat) (hk : k ≠ INT_MIN) (fuel : Nat) (ops : List Op)
    (hops : k ∉ set_keys ops) :
    ∀ d d1 : lp_dict, (∀ e ∈ d.lpTable, e.key ≠ k) → lp_dict.run fuel d ops = some d1 →
      ∀ e ∈ d1.lpTable, e.key ≠ k := by
  induction ops with
  | nil =>
    intro d d1 h hrun
    simp only [lp_dict.run, Option.some.injEq] at hrun
    subst hrun
    exact h
  | cons op ops ih =>
    intro d d1 h hrun
    have hk2 : k ∉ set_keys ops := by
      cases op <;> simp [set_keys] at hops ⊢ <;> tauto
    simp only [lp_dict.run] at hrun
    cases hs : lp_dict.step fuel d op with
    | none => rw [hs] at hrun; simp at hrun
    | some d2 =>
      rw [hs] at hrun
      apply ih hk2 d2 d1 _ hrun
      intro e he
      rcases lp_mem_step fuel d d2 op e hs he with hm | ht | ⟨val, hop⟩
      · exact h e hm
      · rw [ht]; exact fun hh => hk hh.symm
      · intro hek
        apply hops
        rw [hop]
        simp [set_keys, hek]

/-! ## Lemmas on naive_dict -/

theorem naive_search_absent (d : naive_dict) (k : Nat)
    (h : ∀ e ∈ d.entries_, e.key ≠ k) :
    naive_dict.search d k = .error Exn.out_of_range := by
  simp [naive_dict.search, naive_dict.search_iterator, find_absent _ _ h]

/-- A key that is present is found with the value of some entry that has this key. -/
theorem naive_search_present (d : naive_dict) (k : Nat)
    (h : ∃ e ∈ d.entries_, e.key = k) :
    ∃ e ∈ d.entries_, e.key = k ∧ naive_dict.search d k = .ok e.value := by
  have hne := find_present _ _ h
  obtain ⟨_, hk, hm⟩ := find_found _ _ hne
  refine ⟨_, hm, hk, ?_⟩
  simp only [naive_dict.search, naive_dict.search_iterator]
  rw [if_pos hne]

theorem naive_mem_set (d : naive_dict) (key val : Nat) (e : entry)
    (he : e ∈ (naive_dict.set d key val).entries_) :
    e ∈ d.entries_ ∨ e = ⟨key, val⟩ := by
  simp only [naive_dict.set, naive_dict.search_iterator] at he
  by_cases hne : d.entries_.findIdx (fun entry => entry.key == key) ≠ d.entries_.length
  · rw [if_pos hne] at he
    obtain ⟨_, hk, _⟩ := find_found _ _ hne
    rw [hk] at he
    exact List.mem_or_eq_of_mem_set he
  · rw [if_neg hne] at he
    simpa using he

theorem naive_keys_set (d : naive_dict) (key val : Nat) :
    (naive_dict.set d key val).entries_.map entry.key = d.entries_.map entry.key ∨
    (key ∉ d.entries_.map entry.key ∧
      (naive_dict.set d key val).entries_.map entry.key = d.entries_.map entry.key ++ [key]) := by
  simp only [naive_dict.set, naive_dict.search_iterator]
  by_cases hne : d.entries_.findIdx (fun entry => entry.key == key) ≠ d.entries_.length
  · rw [if_pos hne]
    exact Or.inl (keys_set_value _ _ _)
  · rw [if_neg hne]
    right
    refine ⟨?_, by simp⟩
    intro hmem
    obtain ⟨e, he, hek⟩ := List.mem_map.mp hmem
    exact hne (find_present _ _ ⟨e, he, hek⟩)

/-- After `set(key, val)` the key is present, with value `val`. -/
theorem naive_set_present (d : naive_dict) (key val : Nat) :
    (⟨key, val⟩ : entry) ∈ (naive_dict.set d key val).entries_ := by
  simp only [naive_dict.set, naive_dict.search_iterator]
  by_cases hne : d.entries_.findIdx (fun entry => entry.key == key) ≠ d.entries_.length
  · rw [if_pos hne]
    obtain ⟨hlt, hk, _⟩ := find_found _ _ hne
    rw [hk]
    exact List.mem_set _ _ hlt _
  · rw [if_neg hne]
    simp

theorem naive_mem_step (d : naive_dict) (op : Op) (e : entry)
    (he : e ∈ (naive_dict.step d op).entries_) :
    e ∈ d.entries_ ∨ ∃ val, op = Op.set e.key val ∧ e.value = val := by
  cases op with
  | set key val =>
    rcases naive_mem_set d key val e he with h | h
    · exact Or.inl h
    · right; subst h; exact ⟨val, rfl, rfl⟩
  | remove key =>
    left
    simp only [naive_dict.step, naive_dict.remove] at he
    split at he
    · rename_i d1 heq
      split at heq
      · simp only [Except.ok.injEq] at heq
        subst heq
        exact List.mem_of_mem_eraseIdx he
      · simp at heq
    · exact he

/-- The keys of a `naive_dict` stay pairwise distinct. -/
theorem naive_nodup_step (d : naive_dict) (op : Op)
    (h : (d.entries_.map entry.key).Nodup) :
    ((naive_dict.step d op).entries_.map entry.key).Nodup := by
  cases op with
  | set key val =>
    rcases naive_keys_set d key val with hk | ⟨hnew, hk⟩
    · simp only [naive_dict.step]; rw [hk]; exact h
    · simp only [naive_dict.step]; rw [hk]
      rw [List.nodup_append]
      refine ⟨h, List.nodup_singleton _, ?_⟩
      intro a ha hb
      have : a = key := by simpa using hb
      exact hnew (this ▸ ha)
  | remove key =>
    simp only [naive_dict.step, naive_dict.remove]
    split
    · rename_i d1 heq
      split at heq
      · simp only [Except.ok.injEq] at heq
        subst heq
        exact List.Nodup.sublist ((List.eraseIdx_sublist _ _).map _) h
      · simp at heq
    · exact h

theorem naive_nodup_run (ops : List Op) :
    ∀ d : naive_dict, (d.entries_.map entry.key).Nodup →
      ((naive_dict.run d ops).entries_.map entry.key).Nodup := by
  induction ops with
  | nil => intro d h; exact h
  | cons op ops ih =>
    intro d h
    exact ih _ (naive_nodup_step d op h)

/-- A key that is never passed to `set` is never held. -/
theorem naive_absent_run (k : Nat) (ops : List Op) (hk : k ∉ set_keys ops) :
    ∀ d : naive_dict, (∀ e ∈ d.entries_, e.key ≠ k) →
      ∀ e ∈ (naive_dict.run d ops).entries_, e.key ≠ k := by
  induction ops with
  | nil => intro d h; exact h
  | cons op ops ih =>
    intro d h
    have hk2 : k ∉ set_keys ops := by
      cases op <;> simp [set_keys] at hk ⊢ <;> tauto
    apply ih hk2
    intro e he
    rcases naive_mem_step d op e he with hm | ⟨val, hop, _⟩
    · exact h e hm
    · intro hek
      apply hk
      rw [hop]
      simp [set_keys, hek]

/-- After a `remove(k)` that returned, `search(k)` throws, the keys being distinct. -/
theorem naive_search_after_remove (d d1 : naive_dict) (k : Nat)
    (hnd : (d.entries_.map entry.key).Nodup) (h : naive_dict.remove d k = .ok d1) :
    naive_dict.search d1 k = .error Exn.out_of_range := by
  simp only [naive_dict.remove, naive_dict.search_iterator] at h
  split at h
  · rename_i hne
    simp only [Except.ok.injEq] at h
    subst h
    apply naive_search_absent
    exact erase_found_absent _ _ hnd (find_found _ _ hne).1
  · simp at h

/-- The insert phase on a `naive_dict`: the values stay those of `f` and every key that
was present or is inserted is present afterwards. -/
theorem naive_run_insert (f : Nat → Nat) :
    ∀ (rest : List Nat) (d : naive_dict), (∀ e ∈ d.entries_, e.value = f e.key) →
      (∀ e ∈ (naive_dict.run d (rest.map (fun x => Op.set x (f x)))).entries_,
          e.value = f e.key) ∧
      (∀ x, x ∈ rest ∨ x ∈ d.entries_.map entry.key →
          x ∈ (naive_dict.run d (rest.map (fun x => Op.set x (f x)))).entries_.map entry.key) := by
  intro rest
  induction rest with
  | nil =>
    intro d h
    refine ⟨h, ?_⟩
    intro x hx
    rcases hx with hx | hx
    · simp at hx
    · exact hx
  | cons y rest ih =>
    intro d h
    have hval : ∀ e ∈ (naive_dict.set d y (f y)).entries_, e.value = f e.key := by
      intro e he
      rcases naive_mem_set d y (f y) e he with hm | heq
      · exact h e hm
      · rw [heq]
    obtain ⟨ih1, ih2⟩ := ih (naive_dict.set d y (f y)) hval
    refine ⟨ih1, ?_⟩
    intro x hx
    apply ih2 x
    rcases hx with hx | hx
    · rcases List.mem_cons.mp hx with hxy | hxr
      · right
        rw [hxy]
        exact List.mem_map.mpr ⟨_, naive_set_present d y (f y), rfl⟩
      · exact Or.inl hxr
    · right
      rcases naive_keys_set d y (f y) with hk | ⟨_, hk⟩
      · rw [hk]; exact hx
      · rw [hk]; exact List.mem_append.mpr (Or.inl hx)

/-! ## Lemmas on chain_dict -/

theorem bucket_mem_or_nil (t : List (List entry)) (h : Nat) :
    t.getD h [] ∈ t ∨ t.getD h [] = [] := by
  by_cases hlt : h < t.length
  · left
    rw [List.getD_eq_getElem t [] hlt]
    exact List.getElem_mem hlt
  · right
    exact List.getD_eq_default t [] (Nat.le_of_not_lt hlt)

theorem bucket_set_self (t : List (List entry)) (h : Nat) (b : List entry)
    (hlt : h < t.length) : (t.set h b).getD h [] = b := by
  rw [List.getD_eq_getElem _ [] (by simpa using hlt)]
  simp

theorem bucket_set_ne (t : List (List entry)) (h j : Nat) (b : List entry) (hne : h ≠ j) :
    (t.set h b).getD j [] = t.getD j [] := by
  simp [List.getD_eq_getElem?_getD, List.getElem?_set, hne]

theorem chain_search_absent (d : chain_dict) (k : Nat)
    (h : ∀ b ∈ d.chainingTable, ∀ e ∈ b, e.key ≠ k) :
    chain_dict.search d k = .error Exn.out_of_range := by
  have hb : ∀ e ∈ d.chainingTable.getD (poly2_hash_func.hash k % d.capacity_) [], e.key ≠ k := by
    rcases bucket_mem_or_nil d.chainingTable (poly2_hash_func.hash k % d.capacity_) with hm | hn
    · exact h _ hm
    · rw [hn]; simp
  simp only [chain_dict.search, chain_dict.search_iterator]
  rw [find_absent _ _ hb]
  simp

/-- A key with an entry in its bucket is found with the value of some entry of the bucket
that has this key. -/
theorem chain_search_present (d : chain_dict) (k : Nat)
    (h : ∃ e ∈ d.chainingTable.getD (poly2_hash_func.hash k % d.capacity_) [], e.key = k) :
    ∃ e ∈ d.chainingTable.getD (poly2_hash_func.hash k % d.capacity_) [],
      e.key = k ∧ chain_dict.search d k = .ok e.value := by
  have hne := find_present _ _ h
  obtain ⟨_, hk, hm⟩ := find_found _ _ hne
  refine ⟨_, hm, hk, ?_⟩
  simp only [chain_dict.search, chain_dict.search_iterator]
  rw [if_pos hne]

/-- Every entry of a `chain_dict` after one call was there before or is the one `set`. -/
theorem chain_mem_step (d : chain_dict) (op : Op) (b : List entry) (e : entry)
    (hb : b ∈ (chain_dict.step d op).chainingTable) (he : e ∈ b) :
    (∃ b0 ∈ d.chainingTable, e ∈ b0) ∨ ∃ val, op = Op.set e.key val ∧ e.value = val := by
  cases op with
  | set key val =>
    simp only [chain_dict.step, chain_dict.set] at hb
    rcases List.mem_or_eq_of_mem_set hb with hm | heq
    · exact Or.inl ⟨b, hm, he⟩
    · rw [heq] at he
      rcases List.mem_append.mp he with h1 | h1
      · rcases bucket_mem_or_nil d.chainingTable (poly2_hash_func.hash key % d.capacity_)
          with hm | hn
        · exact Or.inl ⟨_, hm, h1⟩
        · rw [hn] at h1; simp at h1
      · right
        have : e = ⟨key, val⟩ := by simpa using h1
        subst this
        exact ⟨val, rfl, rfl⟩
  | remove key =>
    left
    simp only [chain_dict.step, chain_dict.remove] at hb
    split at hb
    · rename_i d1 heq
      split at heq
      · simp only [Except.ok.injEq] at heq
        subst heq
        rcases List.mem_or_eq_of_mem_set hb with hm | heq2
        · exact ⟨b, hm, he⟩
        · rw [heq2] at he
          have h1 := List.mem_of_mem_eraseIdx he
          rcases bucket_mem_or_nil d.chainingTable (poly2_hash_func.hash key % d.capacity_)
            with hm | hn
          · exact ⟨_, hm, h1⟩
          · rw [hn] at h1; simp at h1
      · simp at heq
    · exact ⟨b, hb, he⟩

/-- A key that is never passed to `set` is never held. -/
theorem chain_absent_run (k : Nat) (ops : List Op) (hk : k ∉ set_keys ops) :
    ∀ d : chain_dict, (∀ b ∈ d.chainingTable, ∀ e ∈ b, e.key ≠ k) →
      ∀ b ∈ (chain_dict.run d ops).chainingTable, ∀ e ∈ b, e.key ≠ k := by
  induction ops with
  | nil => intro d h; exact h
  | cons op ops ih =>
    intro d h
    have hk2 : k ∉ set_keys ops := by
      cases op <;> simp [set_keys] at hk ⊢ <;> tauto
    apply ih hk2
    intro b hb e he
    rcases chain_mem_step d op b e hb he with ⟨b0, hb0, he0⟩ | ⟨val, hop, _⟩
    · exact h b0 hb0 e he0
    · intro hek
      apply hk
      rw [hop]
      simp [set_keys, hek]

/-- The insert phase on a `chain_dict`: the values stay those of `f` and every key that
had an entry in its bucket or is inserted has one afterwards. -/
theorem chain_run_insert (f : Nat → Nat) :
    ∀ (rest : List Nat) (d : chain_dict), 0 < d.capacity_ →
      d.chainingTable.length = d.capacity_ →
      (∀ b ∈ d.chainingTable, ∀ e ∈ b, e.value = f e.key) →
      (chain_dict.run d (rest.map (fun x => Op.set x (f x)))).capacity_ = d.capacity_ ∧
      (∀ b ∈ (chain_dict.run d (rest.map (fun x => Op.set x (f x)))).chainingTable,
          ∀ e ∈ b, e.value = f e.key) ∧
      (∀ x, (x ∈ rest ∨
            ∃ e ∈ d.chainingTable.getD (poly2_hash_func.hash x % d.capacity_) [], e.key = x) →
          ∃ e ∈ (chain_dict.run d (rest.map (fun x => Op.set x (f x)))).chainingTable.getD
            (poly2_hash_func.hash x % d.capacity_) [], e.key = x) := by
  intro rest
  induction rest with
  | nil =>
    intro d _ _ h
    refine ⟨rfl, h, ?_⟩
    intro x hx
    rcases hx with hx | hx
    · simp at hx
    · exact hx
  | cons y rest ih =>
    intro d hcap hlen h
    have hval : ∀ b ∈ (chain_dict.set d y (f y)).chainingTable, ∀ e ∈ b, e.value = f e.key := by
      intro b hb e he
      rcases chain_mem_step d (Op.set y (f y)) b e hb he with ⟨b0, hb0, he0⟩ | ⟨val, hop, hv⟩
      · exact h b0 hb0 e he0
      · simp only [Op.set.injEq] at hop
        rw [hv, ← hop.2, hop.1]
    have hlen1 : (chain_dict.set d y (f y)).chainingTable.length
        = (chain_dict.set d y (f y)).capacity_ := by
      simp [chain_dict.set, hlen]
    have hy : poly2_hash_func.hash y % d.capacity_ < d.chainingTable.length := by
      rw [hlen]; exact Nat.mod_lt _ hcap
    obtain ⟨ih0, ih1, ih2⟩ := ih (chain_dict.set d y (f y)) hcap hlen1 hval
    refine ⟨ih0, ih1, ?_⟩
    intro x hx
    apply ih2 x
    rcases hx with hx | ⟨e, he, hek⟩
    · rcases List.mem_cons.mp hx with hx1 | hxr
      · right
        subst hx1
        simp only [chain_dict.set]
        rw [bucket_set_self _ _ _ hy]
        exact ⟨⟨x, f x⟩, by simp, rfl⟩
      · exact Or.inl hxr
    · right
      simp only [chain_dict.set]
      by_cases hxy : poly2_hash_func.hash y % d.capacity_ = poly2_hash_func.hash x % d.capacity_
      · rw [← hxy, bucket_set_self _ _ _ hy]
        rw [← hxy] at he
        exact ⟨e, List.mem_append.mpr (Or.inl he), hek⟩
      · rw [bucket_set_ne _ _ _ _ hxy]
        exact ⟨e, he, hek⟩

/-! ## Lemmas on cuckoo_dict -/

theorem at_key_ne (v : List entry) (i k : Nat) (hk : k ≠ INT_MIN) (h : ∀ e ∈ v, e.key ≠ k) :
    (at_ v i).key ≠ k := by
  rcases at_mem_or_tmp v i with hm | ht
  · exact h _ hm
  · rw [ht]; exact fun hh => hk hh.symm

theorem set_key_ne (v : List entry) (i k : Nat) (a : entry) (ha : a.key ≠ k)
    (h : ∀ e ∈ v, e.key ≠ k) : ∀ e ∈ v.set i a, e.key ≠ k := by
  intro e he
  rcases List.mem_or_eq_of_mem_set he with hm | heq
  · exact h e hm
  · rw [heq]; exact ha

/-- The loop of `cuckoo_dict::set` is left before its fuel is used up, and it brings no
key into the tables other than the one in hand. -/
theorem cuckoo_set_loop_absent (std_hash : Nat → Nat) (k : Nat) (hk : k ≠ INT_MIN) :
    ∀ (fuel : Nat) (d : cuckoo_dict) (key val count : Nat),
      count ≤ d.limit_ → d.limit_ < fuel + count → key ≠ k →
      (∀ e ∈ d.hashTable1, e.key ≠ k) → (∀ e ∈ d.hashTable2, e.key ≠ k) →
      ∃ d1, cuckoo_dict.set_loop std_hash fuel d key val count = some d1 ∧
        (∀ e ∈ d1.hashTable1, e.key ≠ k) ∧ (∀ e ∈ d1.hashTable2, e.key ≠ k) := by
  intro fuel
  induction fuel with
  | zero => intro d key val count h1 h2; omega
  | succ fuel ih =>
    intro d key val count h1 h2 hkey ht1 ht2
    simp only [cuckoo_dict.set_loop]
    split
    · split
      · exact ⟨_, rfl, set_key_ne _ _ _ _ hkey ht1, ht2⟩
      · split
        · refine ⟨_, rfl, set_key_ne _ _ _ _ hkey ht1, ?_⟩
          exact set_key_ne _ _ _ _ (at_key_ne _ _ _ hk ht1) ht2
        · apply ih
          · show count + 1 ≤ d.limit_
            omega
          · show d.limit_ < fuel + (count + 1)
            omega
          · exact at_key_ne _ _ _ hk ht2
          · exact set_key_ne _ _ _ _ hkey ht1
          · exact set_key_ne _ _ _ _ (at_key_ne _ _ _ hk ht1) ht2
    · exact ⟨d, rfl, ht1, ht2⟩

/-- The loop of `cuckoo_dict::set` is left before `limit_ + 1` units of fuel are used up,
and it keeps the size of the tables, `capacity_` and `limit_`. -/
theorem cuckoo_set_loop_total (std_hash : Nat → Nat) :
    ∀ (fuel : Nat) (d : cuckoo_dict) (key val count : Nat),
      count ≤ d.limit_ → d.limit_ < fuel + count →
      ∃ d1, cuckoo_dict.set_loop std_hash fuel d key val count = some d1 ∧
        d1.capacity_ = d.capacity_ ∧ d1.limit_ = d.limit_ ∧
        d1.hashTable1.length = d.hashTable1.length ∧
        d1.hashTable2.length = d.hashTable2.length := by
  intro fuel
  induction fuel with
  | zero => intro d key val count h1 h2; omega
  | succ fuel ih =>
    intro d key val count h1 h2
    simp only [cuckoo_dict.set_loop]
    split
    · split
      · exact ⟨_, rfl, rfl, rfl, by simp, rfl⟩
      · split
        · exact ⟨_, rfl, rfl, rfl, by simp, by simp⟩
        · obtain ⟨d1, hs, g1, g2, g3, g4⟩ := ih
            { hashTable1 := d.hashTable1.set (cuckoo_dict.hash_cuckoo_1 std_hash d key) ⟨key, val⟩
              hashTable2 := d.hashTable2.set
                (cuckoo_dict.hash_cuckoo_2 std_hash
                  { d with hashTable1 :=
                      d.hashTable1.set (cuckoo_dict.hash_cuckoo_1 std_hash d key) ⟨key, val⟩ }
                  (at_ d.hashTable1 (cuckoo_dict.hash_cuckoo_1 std_hash d key)).key)
                ⟨(at_ d.hashTable1 (cuckoo_dict.hash_cuckoo_1 std_hash d key)).key,
                  (at_ d.hashTable1 (cuckoo_dict.hash_cuckoo_1 std_hash d key)).value⟩
              capacity_ := d.capacity_
              limit_ := d.limit_ }
            (at_ d.hashTable2 (cuckoo_dict.hash_cuckoo_2 std_hash
                  { d with hashTable1 :=
                      d.hashTable1.set (cuckoo_dict.hash_cuckoo_1 std_hash d key) ⟨key, val⟩ }
                  (at_ d.hashTable1 (cuckoo_dict.hash_cuckoo_1 std_hash d key)).key)).key
            (at_ d.hashTable2 (cuckoo_dict.hash_cuckoo_2 std_hash
                  { d with hashTable1 :=
                      d.hashTable1.set (cuckoo_dict.hash_cuckoo_1 std_hash d key) ⟨key, val⟩ }
                  (at_ d.hashTable1 (cuckoo_dict.hash_cuckoo_1 std_hash d key)).key)).value
            (count + 1) (by show count + 1 ≤ d.limit_; omega)
            (by show d.limit_ < fuel + (count + 1); omega)
          exact ⟨d1, hs, g1, g2, by simpa using g3, by simpa using g4⟩
    · exact ⟨d, rfl, rfl, rfl, rfl, rfl⟩

/-- The method `cuckoo_dict::set` always returns: it has no `throw`, and its loop is
bounded by `limit_`. -/
theorem cuckoo_set_total (std_hash : Nat → Nat) (d : cuckoo_dict) (key val : Nat) :
    ∃ d1, cuckoo_dict.set std_hash d key val = some d1 ∧
      d1.capacity_ = d.capacity_ ∧ d1.limit_ = d.limit_ ∧
      d1.hashTable1.length = d.hashTable1.length ∧
      d1.hashTable2.length = d.hashTable2.length :=
  cuckoo_set_loop_total std_hash (d.limit_ + 1) d key val 0 (Nat.zero_le _) (by omega)

theorem cuckoo_search_absent (std_hash : Nat → Nat) (d : cuckoo_dict) (k : Nat)
    (hk : k ≠ INT_MIN)
    (h1 : ∀ e ∈ d.hashTable1, e.key ≠ k) (h2 : ∀ e ∈ d.hashTable2, e.key ≠ k) :
    cuckoo_dict.search std_hash d k = .error Exn.out_of_range := by
  simp only [cuckoo_dict.search]
  rw [if_neg (at_key_ne _ _ _ hk h1), if_neg (at_key_ne _ _ _ hk h2)]

/-- A key that is never passed to `set` is never held, and every call returns. -/
theorem cuckoo_absent_run (std_hash : Nat → Nat) (k : Nat) (hk : k ≠ INT_MIN)
    (ops : List Op) (hops : k ∉ set_keys ops) :
    ∀ d : cuckoo_dict, (∀ e ∈ d.hashTable1, e.key ≠ k) → (∀ e ∈ d.hashTable2, e.key ≠ k) →
      ∃ d1, cuckoo_dict.run std_hash d ops = some d1 ∧
        (∀ e ∈ d1.hashTable1, e.key ≠ k) ∧ (∀ e ∈ d1.hashTable2, e.key ≠ k) := by
  induction ops with
  | nil => intro d h1 h2; exact ⟨d, rfl, h1, h2⟩
  | cons op ops ih =>
    intro d h1 h2
    have hk2 : k ∉ set_keys ops := by
      cases op <;> simp [set_keys] at hops ⊢ <;> tauto
    cases op with
    | set key val =>
      have hkey : key ≠ k := by
        intro hh; apply hops; simp [set_keys, hh]
      obtain ⟨d1, hs, g1, g2⟩ := cuckoo_set_loop_absent std_hash k hk (d.limit_ + 1) d key val 0
        (Nat.zero_le _) (by omega) hkey h1 h2
      obtain ⟨d2, hr, r1, r2⟩ := ih hk2 d1 g1 g2
      refine ⟨d2, ?_, r1, r2⟩
      simp only [cuckoo_dict.run, cuckoo_dict.step, cuckoo_dict.set, hs]
      exact hr
    | remove key =>
      have hstep : ∃ d1, cuckoo_dict.step std_hash d (Op.remove key) = some d1 ∧
          (∀ e ∈ d1.hashTable1, e.key ≠ k) ∧ (∀ e ∈ d1.hashTable2, e.key ≠ k) := by
        have htmp : tmp.key ≠ k := fun hh => hk hh.symm
        simp only [cuckoo_dict.step, cuckoo_dict.remove]
        by_cases c1 : (at_ d.hashTable1 (cuckoo_dict.hash_cuckoo_1 std_hash d key)).key = key
        · rw [if_pos c1]
          exact ⟨_, rfl, set_key_ne _ _ _ _ htmp h1, h2⟩
        · rw [if_neg c1]
          by_cases c2 : (at_ d.hashTable2 (cuckoo_dict.hash_cuckoo_2 std_hash d key)).key = key
          · rw [if_pos c2]
            exact ⟨_, rfl, h1, set_key_ne _ _ _ _ htmp h2⟩
          · rw [if_neg c2]
            exact ⟨_, rfl, h1, h2⟩
      obtain ⟨d1, hs, g1, g2⟩ := hstep
      obtain ⟨d2, hr, r1, r2⟩ := ih hk2 d1 g1 g2
      refine ⟨d2, ?_, r1, r2⟩
      simp only [cuckoo_dict.run, hs]
      exact hr

theorem set_replicate_same (n i : Nat) (a : entry) :
    (List.replicate n a).set i a = List.replicate n a := by
  apply List.ext_getElem
  · simp
  · intro j h1 h2
    simp [List.getElem_set]

/-! ## Lemmas on the polynomial hash functions -/

theorem poly2_closed_form (key : Nat) :
    poly2_hash_func.hash key = (10 + 20 * key) % 4294967296 := by
  unfold poly2_hash_func.hash
  simp [Nat.add_mod_mod]

theorem poly5_closed_form (key : Nat) :
    poly5_hash_func.hash key
      = (5 + 6 * key + 7 * key ^ 2 + 8 * key ^ 3 + 9 * key ^ 4) % 4294967296 := by
  unfold poly5_hash_func.hash add32 mul32
  simp only [Nat.add_mod_mod, Nat.mod_add_mod, Nat.mul_mod_mod, Nat.mod_mul_mod]
  congr 1
  ring

theorem poly2_mod_four (key : Nat) : poly2_hash_func.hash key % 4 = 2 := by
  rw [poly2_closed_form, Nat.mod_mod_of_dvd _ (by norm_num : 4 ∣ 4294967296)]
  omega

theorem poly5_mod_two (key : Nat) : poly5_hash_func.hash key % 2 = 1 := by
  rw [poly5_closed_form, Nat.mod_mod_of_dvd _ (by norm_num : 2 ∣ 4294967296)]
  rcases Nat.even_or_odd' key with ⟨m, h | h⟩ <;> subst h <;> ring_nf <;> omega

theorem chain_capacity_step (d : chain_dict) (op : Op) :
    (chain_dict.step d op).capacity_ = d.capacity_ := by
  cases op with
  | set key val => rfl
  | remove key =>
    simp only [chain_dict.step, chain_dict.remove]
    split
    · rename_i d1 heq
      split at heq
      · simp only [Except.ok.injEq] at heq
        subst heq
        rfl
      · simp at heq
    · rfl

/-- A call on a `chain_dict` changes no bucket other than the one of its key. -/
theorem chain_other_bucket_step (d : chain_dict) (op : Op) (i : Nat)
    (hi : ∀ key, i ≠ poly2_hash_func.hash key % d.capacity_) :
    (chain_dict.step d op).chainingTable.getD i [] = d.chainingTable.getD i [] := by
  cases op with
  | set key val =>
    simp only [chain_dict.step, chain_dict.set]
    exact bucket_set_ne _ _ _ _ (Ne.symm (hi key))
  | remove key =>
    simp only [chain_dict.step, chain_dict.remove]
    split
    · rename_i d1 heq
      split at heq
      · simp only [Except.ok.injEq] at heq
        subst heq
        exact bucket_set_ne _ _ _ _ (Ne.symm (hi key))
      · simp at heq
    · rfl

theorem chain_other_bucket_run (i : Nat) (ops : List Op) :
    ∀ d : chain_dict, (∀ key, i ≠ poly2_hash_func.hash key % d.capacity_) →
      (chain_dict.run d ops).chainingTable.getD i [] = d.chainingTable.getD i [] := by
  induction ops with
  | nil => intro d _; rfl
  | cons op ops ih =>
    intro d hi
    have h1 := ih (chain_dict.step d op) (by rw [chain_capacity_step]; exact hi)
    have h2 := chain_other_bucket_step d op i hi
    show (chain_dict.run (chain_dict.step d op) ops).chainingTable.getD i [] = _
    rw [h1, h2]

theorem naive_search_eq_find_value (d : naive_dict) (k : Nat) :
    naive_dict.search d k = find_value d.entries_ k := rfl

theorem chain_search_eq_find_value (d : chain_dict) (k : Nat) :
    chain_dict.search d k
      = find_value (d.chainingTable.getD (poly2_hash_func.hash k % d.capacity_) []) k := rfl

theorem findIdx_key_cons_eq (a : entry) (l : List entry) (k : Nat) (h : a.key = k) :
    (a :: l).findIdx (fun entry => entry.key == k) = 0 := by
  have hb : (a.key == k) = true := by simpa using h
  rw [List.findIdx_cons, hb]
  rfl

theorem findIdx_key_cons_ne (a : entry) (l : List entry) (k : Nat) (h : a.key ≠ k) :
    (a :: l).findIdx (fun entry => entry.key == k)
      = l.findIdx (fun entry => entry.key == k) + 1 := by
  have hb : (a.key == k) = false := by simpa using h
  rw [List.findIdx_cons, hb]
  rfl

theorem find_value_cons (a : entry) (l : List entry) (k : Nat) :
    find_value (a :: l) k = if a.key = k then .ok a.value else find_value l k := by
  unfold find_value
  by_cases h : a.key = k
  · rw [findIdx_key_cons_eq a l k h, if_pos h, if_pos (by simp)]
    rfl
  · rw [findIdx_key_cons_ne a l k h, if_neg h]
    have e : at_ (a :: l) (l.findIdx (fun entry => entry.key == k) + 1)
        = at_ l (l.findIdx (fun entry => entry.key == k)) := rfl
    rw [e]
    by_cases hl : l.findIdx (fun entry => entry.key == k) ≠ l.length
    · rw [if_pos hl, if_pos (by simpa using hl)]
    · rw [if_neg hl, if_neg (by simpa using hl)]

/-- Erasing the first entry with key `k` does not change what is found for another key. -/
theorem find_value_erase_other (k k2 : Nat) (hne : k ≠ k2) :
    ∀ l : List entry,
      find_value (l.eraseIdx (l.findIdx (fun entry => entry.key == k))) k2 = find_value l k2 := by
  intro l
  induction l with
  | nil => rfl
  | cons a l ih =>
    by_cases h : a.key = k
    · rw [findIdx_key_cons_eq a l k h, List.eraseIdx_cons_zero, find_value_cons,
        if_neg (by rw [h]; exact hne)]
    · rw [findIdx_key_cons_ne a l k h, List.eraseIdx_cons_succ, find_value_cons,
        find_value_cons, ih]

theorem naive_remove_other (d : naive_dict) (k k2 : Nat) (hne : k ≠ k2) :
    naive_dict.search (naive_dict.step d (Op.remove k)) k2 = naive_dict.search d k2 := by
  simp only [naive_dict.step, naive_dict.remove, naive_dict.search_iterator]
  by_cases h : d.entries_.findIdx (fun entry => entry.key == k) ≠ d.entries_.length
  · rw [if_pos h]
    simp only [naive_search_eq_find_value]
    exact find_value_erase_other k k2 hne d.entries_
  · rw [if_neg h]

theorem chain_remove_other (d : chain_dict) (k k2 : Nat) (hne : k ≠ k2) :
    chain_dict.search (chain_dict.step d (Op.remove k)) k2 = chain_dict.search d k2 := by
  simp only [chain_dict.step, chain_dict.remove, chain_dict.search_iterator]
  by_cases h : (d.chainingTable.getD (poly2_hash_func.hash k % d.capacity_) []).findIdx
      (fun entry => entry.key == k)
      ≠ (d.chainingTable.getD (poly2_hash_func.hash k % d.capacity_) []).length
  · rw [if_pos h]
    simp only [chain_search_eq_find_value]
    by_cases hb : poly2_hash_func.hash k % d.capacity_ = poly2_hash_func.hash k2 % d.capacity_
    · by_cases hlt : poly2_hash_func.hash k % d.capacity_ < d.chainingTable.length
      · rw [← hb, bucket_set_self _ _ _ hlt]
        exact find_value_erase_other k k2 hne _
      · rw [List.set_eq_of_length_le (Nat.le_of_not_lt hlt)]
    · rw [bucket_set_ne _ _ _ _ hb]
  · rw [if_neg h]

/-- Whether `cuckoo_dict::remove(k)` throws or not, `search` of another key that is not
the sentinel has the same outcome afterwards. -/
theorem cuckoo_remove_other (std_hash : Nat → Nat) (d : cuckoo_dict) (k k2 : Nat)
    (hne : k ≠ k2) (hk : k ≠ INT_MIN) (hk2 : k2 ≠ INT_MIN) :
    ∃ d1, cuckoo_dict.step std_hash d (Op.remove k) = some d1 ∧
      cuckoo_dict.search std_hash d1 k2 = cuckoo_dict.search std_hash d k2 := by
  have htmp : tmp.key ≠ k2 := fun hh => hk2 hh.symm
  simp only [cuckoo_dict.step, cuckoo_dict.remove]
  by_cases c1 : (at_ d.hashTable1 (cuckoo_dict.hash_cuckoo_1 std_hash d k)).key = k
  · rw [if_pos c1]
    refine ⟨_, rfl, ?_⟩
    have c1u : (at_ d.hashTable1 (std_hash k % d.capacity_)).key = k := c1
    have hlt : std_hash k % d.capacity_ < d.hashTable1.length :=
      at_lt_length _ _ (by rw [c1u]; exact hk)
    simp only [cuckoo_dict.search, cuckoo_dict.hash_cuckoo_1, cuckoo_dict.hash_cuckoo_2]
    by_cases e : std_hash k % d.capacity_ = std_hash k2 % d.capacity_
    · have n1 : ¬ (at_ d.hashTable1 (std_hash k % d.capacity_)).key = k2 := by
        rw [c1u]; exact hne
      rw [← e, at_set_self _ _ _ hlt, if_neg htmp, if_neg n1]
    · rw [at_set_ne _ _ _ _ e]
  · rw [if_neg c1]
    by_cases c2 : (at_ d.hashTable2 (cuckoo_dict.hash_cuckoo_2 std_hash d k)).key = k
    · rw [if_pos c2]
      refine ⟨_, rfl, ?_⟩
      have c2u : (at_ d.hashTable2 ((std_hash k / 2) % d.capacity_)).key = k := c2
      have hlt : (std_hash k / 2) % d.capacity_ < d.hashTable2.length :=
        at_lt_length _ _ (by rw [c2u]; exact hk)
      simp only [cuckoo_dict.search, cuckoo_dict.hash_cuckoo_1, cuckoo_dict.hash_cuckoo_2]
      by_cases e : (std_hash k / 2) % d.capacity_ = (std_hash k2 / 2) % d.capacity_
      · have n2 : ¬ (at_ d.hashTable2 ((std_hash k / 2) % d.capacity_)).key = k2 := by
          rw [c2u]; exact hne
        rw [← e, at_set_self _ _ _ hlt, if_neg htmp, if_neg n2]
      · rw [at_set_ne _ _ _ _ e]
    · rw [if_neg c2]
      exact ⟨d, rfl, rfl⟩

/-- Every sequence of calls on a `cuckoo_dict` returns. -/
theorem cuckoo_run_total (std_hash : Nat → Nat) (ops : List Op) :
    ∀ d : cuckoo_dict, ∃ d1, cuckoo_dict.run std_hash d ops = some d1 := by
  induction ops with
  | nil => intro d; exact ⟨d, rfl⟩
  | cons op ops ih =>
    intro d
    have hstep : ∃ d1, cuckoo_dict.step std_hash d op = some d1 := by
      cases op with
      | set key val =>
        obtain ⟨d1, h, _⟩ := cuckoo_set_total std_hash d key val
        exact ⟨d1, h⟩
      | remove key =>
        simp only [cuckoo_dict.step]
        cases cuckoo_dict.remove std_hash d key with
        | ok d1 => exact ⟨d1, rfl⟩
        | error e => exact ⟨d, rfl⟩
    obtain ⟨d1, h1⟩ := hstep
    obtain ⟨d2, h2⟩ := ih d1
    refine ⟨d2, ?_⟩
    simp only [cuckoo_dict.run, h1]
    exact h2

/-! ## Lemmas on the probe sequence of lp_dict -/

theorem succ_mod_add (c i j : Nat) : ((i + 1) % c + j) % c = (i + (j + 1)) % c := by
  rw [Nat.add_mod, Nat.mod_mod, ← Nat.add_mod]
  congr 1
  omega

/-- The bounded loop is left at the first slot of the probe sequence that is not busy, when
that slot is reached before the counter passes `capacity_`. -/
theorem lp_bounded_loop_found (d : lp_dict) (key : Nat) :
    ∀ n fuel i count, i < d.capacity_ →
      (∀ j, j < n → lp_dict.busy d key ((i + j) % d.capacity_)) →
      ¬ lp_dict.busy d key ((i + n) % d.capacity_) →
      count + n ≤ d.capacity_ → n < fuel →
      lp_dict.bounded_loop d key fuel i count = some (.ok ((i + n) % d.capacity_)) := by
  intro n
  induction n with
  | zero =>
    intro fuel i count hi _ hfree _ hfuel
    obtain ⟨f, rfl⟩ : ∃ f, fuel = f + 1 := ⟨fuel - 1, by omega⟩
    rw [Nat.add_zero, Nat.mod_eq_of_lt hi] at hfree
    rw [lp_bounded_loop_succ, if_neg hfree, Nat.add_zero, Nat.mod_eq_of_lt hi]
  | succ n ih =>
    intro fuel i count hi hbusy hfree hc hfuel
    obtain ⟨f, rfl⟩ : ∃ f, fuel = f + 1 := ⟨fuel - 1, by omega⟩
    have hb0 : lp_dict.busy d key i := by
      have := hbusy 0 (by omega)
      rwa [Nat.add_zero, Nat.mod_eq_of_lt hi] at this
    rw [lp_bounded_loop_succ, if_pos hb0, if_neg (by omega)]
    have hcap : 0 < d.capacity_ := by omega
    rw [ih f ((i + 1) % d.capacity_) (count + 1) (Nat.mod_lt _ hcap)
      (by
        intro j hj
        rw [succ_mod_add]
        exact hbusy (j + 1) (by omega))
      (by rw [succ_mod_add]; exact hfree) (by omega) (by omega)]
    rw [succ_mod_add]

/-- A bounded loop that is left at `p` has gone through busy slots only, and `p` is the
slot of the probe sequence that follows them. -/
theorem lp_bounded_loop_path (d : lp_dict) (key p : Nat) :
    ∀ fuel i count, i < d.capacity_ → count ≤ d.capacity_ →
      lp_dict.bounded_loop d key fuel i count = some (.ok p) →
      ∃ n, count + n ≤ d.capacity_ ∧ p = (i + n) % d.capacity_ ∧
        ∀ j, j < n → lp_dict.busy d key ((i + j) % d.capacity_) := by
  intro fuel
  induction fuel with
  | zero => intro i count _ _ h; simp [lp_dict.bounded_loop] at h
  | succ fuel ih =>
    intro i count hi hcount h
    rw [lp_bounded_loop_succ] at h
    by_cases hb : lp_dict.busy d key i
    · rw [if_pos hb] at h
      by_cases hc : count + 1 > d.capacity_
      · rw [if_pos hc] at h; simp at h
      · rw [if_neg hc] at h
        have hcap : 0 < d.capacity_ := by omega
        obtain ⟨n, hn, hp, hbusy⟩ := ih _ _ (Nat.mod_lt _ hcap) (by omega) h
        refine ⟨n + 1, by omega, by rw [hp, succ_mod_add], ?_⟩
        intro j hj
        cases j with
        | zero => rwa [Nat.add_zero, Nat.mod_eq_of_lt hi]
        | succ j =>
          have := hbusy j (by omega)
          rwa [succ_mod_add] at this
    · rw [if_neg hb] at h
      simp only [Option.some.injEq, Except.ok.injEq] at h
      refine ⟨0, by omega, by rw [Nat.add_zero, Nat.mod_eq_of_lt hi, h], ?_⟩
      intro j hj
      omega

/-! ## Theorems -/

/-- C1: after `set(k, v)` has returned, `search(k)` does not always return `v` on a
`cuckoo_dict`: with capacity 8 and the keys 1, 17, 33 the third `set` returns and
`search(33)` throws `std::out_of_range`, and with capacity 1 `set(0, 1)` returns and
`search(0)` throws. -/
theorem cuckoo_set_then_search_throws :
    ((cuckoo_dict.run std_hash_id (cuckoo_dict.new 8)
        [Op.set 1 100, Op.set 17 200, Op.set 33 300]).map
        (fun d => cuckoo_dict.search std_hash_id d 33)
      = some (.error Exn.out_of_range))
    ∧ ((cuckoo_dict.set std_hash_id (cuckoo_dict.new 1) 0 1).map
        (fun d => cuckoo_dict.search std_hash_id d 0)
      = some (.error Exn.out_of_range)) := by
  decide

/-- C2: a `set` whose eviction loop uses up `limit_` returns normally and drops the
entry it holds: with capacity 2 (`limit_ = 1`) and the keys 0 and 4 stored, `set(8, 300)`
returns the two tables below, in which the entry `(0, 100)` that `search(0)` found
before the call is gone. -/
theorem cuckoo_set_drops_entry_in_hand :
    cuckoo_dict.run std_hash_id (cuckoo_dict.new 2) [Op.set 0 100, Op.set 4 200]
      = some ⟨[⟨4, 200⟩, tmp], [⟨0, 100⟩, tmp], 2, 1⟩
    ∧ cuckoo_dict.search std_hash_id ⟨[⟨4, 200⟩, tmp], [⟨0, 100⟩, tmp], 2, 1⟩ 0 = .ok 100
    ∧ cuckoo_dict.set std_hash_id ⟨[⟨4, 200⟩, tmp], [⟨0, 100⟩, tmp], 2, 1⟩ 8 300
      = some ⟨[⟨8, 300⟩, tmp], [⟨4, 200⟩, tmp], 2, 1⟩
    ∧ cuckoo_dict.search std_hash_id ⟨[⟨8, 300⟩, tmp], [⟨4, 200⟩, tmp], 2, 1⟩ 0
      = .error Exn.out_of_range := by
  decide

/-- C3: on a full `lp_dict` that does not hold `key`, `set(key, val)` does not throw
`std::length_error` after `capacity_` probes: its loop has no bound and is still running
after any number of probes. -/
theorem lp_set_on_full_table_never_returns (d : lp_dict) (key val : Nat)
    (hcap : 1 ≤ d.capacity_)
    (hfull : ∀ i, i < d.capacity_ →
      (at_ d.lpTable i).key ≠ INT_MIN ∧ (at_ d.lpTable i).key ≠ key) :
    ∀ fuel, lp_dict.set fuel d key val = none := by
  intro fuel
  apply lp_set_of_loop_none
  exact lp_set_loop_all_busy d key hfull fuel _ (Nat.mod_lt _ (by omega))

theorem lp_set_on_full_table_never_returns_witness :
    (1 ≤ (⟨1, [⟨5, 6⟩]⟩ : lp_dict).capacity_) ∧
    (∀ i, i < 1 → (at_ [⟨5, 6⟩] i).key ≠ INT_MIN ∧ (at_ [⟨5, 6⟩] i).key ≠ 7) ∧
    lp_dict.set 1000 ⟨1, [⟨5, 6⟩]⟩ 7 8 = none :=
  ⟨by decide, by decide,
    lp_set_on_full_table_never_returns ⟨1, [⟨5, 6⟩]⟩ 7 8 (by decide) (by decide) 1000⟩

/-- C4: `remove(key)` on a freshly constructed `lp_dict` returns normally and leaves the
table as it is, although no slot holds `key`; no `std::out_of_range` is thrown. -/
theorem lp_remove_on_fresh_table_returns (capacity key : Nat) (hcap : 1 ≤ capacity)
    (hkey : key ≠ INT_MIN) :
    poly5_hash_func.hash key % capacity < (lp_dict.new capacity).lpTable.length ∧
    (∀ i, (at_ (lp_dict.new capacity).lpTable i).key ≠ key) ∧
    lp_dict.remove (lp_dict.new capacity) key = some (.ok (lp_dict.new capacity)) := by
  refine ⟨?_, ?_, ?_⟩
  · simp only [lp_dict.new, List.length_replicate]
    exact Nat.mod_lt _ (by omega)
  · intro i
    simp only [lp_dict.new, at_replicate]
    exact fun hh => hkey hh.symm
  · have hloop : lp_dict.bounded_loop (lp_dict.new capacity) key ((lp_dict.new capacity).capacity_ + 1)
        (poly5_hash_func.hash key % (lp_dict.new capacity).capacity_) 0
        = some (.ok (poly5_hash_func.hash key % (lp_dict.new capacity).capacity_)) := by
      rw [lp_bounded_loop_succ, if_neg]
      intro hb
      apply hb.1
      simp only [lp_dict.new, at_replicate]
      rfl
    rw [lp_remove_of_loop_ok _ _ _ hloop, if_neg]
    simp only [lp_dict.new, at_replicate]
    simp [tmp]

theorem lp_remove_on_fresh_table_returns_witness :
    1 ≤ 8 ∧ 1 ≠ INT_MIN ∧
    lp_dict.remove (lp_dict.new 8) 1 = some (.ok (lp_dict.new 8)) :=
  ⟨by decide, by decide, (lp_remove_on_fresh_table_returns 8 1 (by decide) (by decide)).2.2⟩

/-- C5: `chain_dict::set` appends without looking for the key: after `set(k, v1)` and
`set(k, v2)` on a fresh dictionary the bucket of `k` holds the two entries `(k, v1)` and
`(k, v2)`, and `search(k)` returns `v1`. -/
theorem chain_set_twice_keeps_both (capacity k v1 v2 : Nat) (hcap : 1 ≤ capacity) :
    ((chain_dict.new capacity).set k v1 |>.set k v2).chainingTable.getD
        (poly2_hash_func.hash k % capacity) [] = [⟨k, v1⟩, ⟨k, v2⟩] ∧
    chain_dict.search ((chain_dict.new capacity).set k v1 |>.set k v2) k = .ok v1 := by
  have hlt : poly2_hash_func.hash k % capacity < capacity := Nat.mod_lt _ (by omega)
  have hb : ((chain_dict.new capacity).set k v1 |>.set k v2).chainingTable.getD
      (poly2_hash_func.hash k % capacity) [] = [⟨k, v1⟩, ⟨k, v2⟩] := by
    simp only [chain_dict.set, chain_dict.new]
    rw [bucket_set_self _ _ _ (by simpa using hlt), bucket_set_self _ _ _ (by simpa using hlt)]
    simp [List.getD_eq_getElem?_getD, hlt]
  refine ⟨hb, ?_⟩
  have hc : ((chain_dict.new capacity).set k v1 |>.set k v2).capacity_ = capacity := rfl
  simp only [chain_dict.search, chain_dict.search_iterator, hc, hb]
  simp [List.findIdx_cons, at_]

theorem chain_set_twice_keeps_both_witness :
    1 ≤ 8 ∧
    ((chain_dict.new 8).set 1 10 |>.set 1 20).chainingTable.getD
        (poly2_hash_func.hash 1 % 8) [] = [⟨1, 10⟩, ⟨1, 20⟩] ∧
    chain_dict.search ((chain_dict.new 8).set 1 10 |>.set 1 20) 1 = .ok 10 :=
  ⟨by decide, chain_set_twice_keeps_both 8 1 10 20 (by decide)⟩

/-- C6: `cuckoo_dict::set` does not look for the key: after `set(k, v1)` and `set(k, v2)`
on a fresh dictionary of capacity at least 2, the second call has evicted `(k, v1)` from
`hashTable1` into `hashTable2`, so two slots hold the key `k`. -/
theorem cuckoo_set_twice_keeps_both (std_hash : Nat → Nat) (capacity k v1 v2 : Nat)
    (hcap : 2 ≤ capacity) (hk : k ≠ INT_MIN) :
    ∃ d, cuckoo_dict.run std_hash (cuckoo_dict.new capacity) [Op.set k v1, Op.set k v2] = some d ∧
      at_ d.hashTable1 (std_hash k % capacity) = ⟨k, v2⟩ ∧
      at_ d.hashTable2 ((std_hash k / 2) % capacity) = ⟨k, v1⟩ := by
  have hlim : 0 < log2_floor capacity := log2_floor_pos capacity hcap
  have h1 : std_hash k % capacity < (List.replicate capacity tmp).length := by
    simpa using Nat.mod_lt _ (by omega : 0 < capacity)
  have h2 : (std_hash k / 2) % capacity < (List.replicate capacity tmp).length := by
    simpa using Nat.mod_lt _ (by omega : 0 < capacity)
  have e1 : cuckoo_dict.set std_hash (cuckoo_dict.new capacity) k v1
      = some ⟨(List.replicate capacity tmp).set (std_hash k % capacity) ⟨k, v1⟩,
          List.replicate capacity tmp, capacity, log2_floor capacity⟩ := by
    simp only [cuckoo_dict.set, cuckoo_dict.set_loop, cuckoo_dict.new, cuckoo_dict.hash_cuckoo_1,
      at_replicate]
    rw [if_pos hlim, if_pos (by rfl)]
  have e2 : cuckoo_dict.set std_hash
        ⟨(List.replicate capacity tmp).set (std_hash k % capacity) ⟨k, v1⟩,
          List.replicate capacity tmp, capacity, log2_floor capacity⟩ k v2
      = some ⟨((List.replicate capacity tmp).set (std_hash k % capacity) ⟨k, v1⟩).set
            (std_hash k % capacity) ⟨k, v2⟩,
          (List.replicate capacity tmp).set ((std_hash k / 2) % capacity) ⟨k, v1⟩,
          capacity, log2_floor capacity⟩ := by
    simp only [cuckoo_dict.set, cuckoo_dict.set_loop, cuckoo_dict.hash_cuckoo_1,
      cuckoo_dict.hash_cuckoo_2, at_replicate, at_set_self _ _ _ h1]
    rw [if_pos hlim, if_neg hk, if_pos (by rfl)]
  refine ⟨⟨((List.replicate capacity tmp).set (std_hash k % capacity) ⟨k, v1⟩).set
            (std_hash k % capacity) ⟨k, v2⟩,
          (List.replicate capacity tmp).set ((std_hash k / 2) % capacity) ⟨k, v1⟩,
          capacity, log2_floor capacity⟩, ?_, ?_, ?_⟩
  · simp only [cuckoo_dict.run, cuckoo_dict.step, e1, e2]
  · exact at_set_self _ _ _ (by simpa using h1)
  · exact at_set_self _ _ _ h2

theorem cuckoo_set_twice_keeps_both_witness :
    2 ≤ 8 ∧ 1 ≠ INT_MIN ∧
    ∃ d, cuckoo_dict.run std_hash_id (cuckoo_dict.new 8) [Op.set 1 10, Op.set 1 20] = some d ∧
      at_ d.hashTable1 (std_hash_id 1 % 8) = ⟨1, 20⟩ ∧
      at_ d.hashTable2 ((std_hash_id 1 / 2) % 8) = ⟨1, 10⟩ :=
  ⟨by decide, by decide, cuckoo_set_twice_keeps_both std_hash_id 8 1 10 20 (by decide) (by decide)⟩

/-- C7: on a fresh `naive_dict`, `chain_dict` or `lp_dict` of capacity `n >= 1`, the insert
phase `set(x, x+1)` over `n` pairwise distinct keys other than the sentinel returns every
time (the loop of `lp_dict::set` is left within `n` probes), the `lp_dict` ends with no
slot holding the sentinel, and `search(x)` returns `x+1` for every inserted `x`. -/
theorem insert_phase_then_search (n : Nat) (insert : List Nat) (hn : 1 ≤ n)
    (hlen : insert.length = n) (hnd : insert.Nodup) (hs : ∀ x ∈ insert, x ≠ INT_MIN) :
    (∀ x ∈ insert,
      naive_dict.search (naive_dict.run (naive_dict.new n) (insert_ops insert)) x
        = .ok ((x + 1) % 4294967296)) ∧
    (∀ x ∈ insert,
      chain_dict.search (chain_dict.run (chain_dict.new n) (insert_ops insert)) x
        = .ok ((x + 1) % 4294967296)) ∧
    ∃ d, lp_dict.run n (lp_dict.new n) (insert_ops insert) = some d ∧
      (∀ i, i < n → (at_ d.lpTable i).key ≠ INT_MIN) ∧
      ∀ x ∈ insert, lp_dict.search d x = some (.ok ((x + 1) % 4294967296)) := by
  refine ⟨?_, ?_, ?_⟩
  · intro x hx
    obtain ⟨hval, hpres⟩ := naive_run_insert (fun x => (x + 1) % 4294967296) insert
      (naive_dict.new n) (by intro e he; simp [naive_dict.new] at he)
    obtain ⟨e, he, hek⟩ := List.mem_map.mp (hpres x (Or.inl hx))
    obtain ⟨e1, he1, hk1, hs1⟩ := naive_search_present _ x ⟨e, he, hek⟩
    have hv := hval e1 he1
    simp only [hk1] at hv
    show naive_dict.search (naive_dict.run (naive_dict.new n)
      (insert.map (fun x => Op.set x ((x + 1) % 4294967296)))) x = _
    rw [hs1, hv]
  · intro x hx
    obtain ⟨hc, hval, hpres⟩ := chain_run_insert (fun x => (x + 1) % 4294967296) insert
      (chain_dict.new n) (by simpa [chain_dict.new] using hn) (by simp [chain_dict.new])
      (by
        intro b hb e he
        simp only [chain_dict.new, List.mem_replicate] at hb
        rw [hb.2] at he
        simp at he)
    have hp := hpres x (Or.inl hx)
    rw [← hc] at hp
    obtain ⟨e1, he1, hk1, hs1⟩ := chain_search_present _ x hp
    have hb1 := bucket_mem_or_nil (chain_dict.run (chain_dict.new n)
      (insert.map (fun x => Op.set x ((x + 1) % 4294967296)))).chainingTable
      (poly2_hash_func.hash x % (chain_dict.run (chain_dict.new n)
      (insert.map (fun x => Op.set x ((x + 1) % 4294967296)))).capacity_)
    have hv : e1.value = (e1.key + 1) % 4294967296 := by
      rcases hb1 with hm | hnil
      · exact hval _ hm e1 he1
      · rw [hnil] at he1; simp at he1
    simp only [hk1] at hv
    show chain_dict.search (chain_dict.run (chain_dict.new n)
      (insert.map (fun x => Op.set x ((x + 1) % 4294967296)))) x = _
    rw [hs1, hv]
  · have hinit : lp_dict.filled (lp_dict.new n) (fun x => (x + 1) % 4294967296) [] := by
      refine ⟨by simp [lp_dict.new], ?_, by simp, ?_⟩
      · simp only [lp_dict.new, List.length_nil]
        rw [List.countP_eq_zero]
        intro e he
        rw [(List.mem_replicate.mp he).2]
        simp [tmp]
      · intro e he hne
        simp only [lp_dict.new] at he
        rw [(List.mem_replicate.mp he).2] at hne
        exact absurd rfl hne
    obtain ⟨d, hrun, hc, hl, hcount, hfound, _⟩ :=
      lp_run_insert (fun x => (x + 1) % 4294967296) insert [] (lp_dict.new n) hinit
        (by simpa using hnd) hs (by simp [lp_dict.new, hlen])
    refine ⟨d, hrun, ?_, ?_⟩
    · intro i hi
      have hall := List.countP_eq_length.mp
        (show List.countP (fun e : entry => e.key != INT_MIN) d.lpTable = d.lpTable.length by
          rw [hcount, hl, hc]; simpa [lp_dict.new] using hlen)
      have hi2 : i < d.lpTable.length := by rw [hl, hc]; exact hi
      unfold at_
      rw [List.getD_eq_getElem d.lpTable tmp hi2]
      simpa using hall _ (List.getElem_mem hi2)
    · intro x hx
      exact hfound x (by simpa using hx)

theorem insert_phase_then_search_witness :
    (1 ≤ 2 ∧ [1, 2].length = 2 ∧ [1, 2].Nodup ∧ ∀ x ∈ [1, 2], x ≠ INT_MIN) ∧
    ((∀ x ∈ [1, 2],
      naive_dict.search (naive_dict.run (naive_dict.new 2) (insert_ops [1, 2])) x
        = .ok ((x + 1) % 4294967296)) ∧
    (∀ x ∈ [1, 2],
      chain_dict.search (chain_dict.run (chain_dict.new 2) (insert_ops [1, 2])) x
        = .ok ((x + 1) % 4294967296)) ∧
    ∃ d, lp_dict.run 2 (lp_dict.new 2) (insert_ops [1, 2]) = some d ∧
      (∀ i, i < 2 → (at_ d.lpTable i).key ≠ INT_MIN) ∧
      ∀ x ∈ [1, 2], lp_dict.search d x = some (.ok ((x + 1) % 4294967296))) :=
  ⟨by decide,
    insert_phase_then_search 2 [1, 2] (by decide) (by decide) (by decide) (by decide)⟩

/-- C8: a key other than the sentinel that was never passed to `set` is not found:
after any sequence of calls on a fresh dictionary, `search(k)` throws `std::out_of_range`,
for each of the four dictionaries; for `lp_dict` the sequence is one whose calls of `set`
all return, and the table may be full. -/
theorem search_never_set_key_throws (capacity k : Nat) (ops : List Op)
    (_hcap : 1 ≤ capacity) (hk : k ≠ INT_MIN) (hops : k ∉ set_keys ops) :
    naive_dict.search (naive_dict.run (naive_dict.new capacity) ops) k
      = .error Exn.out_of_range ∧
    chain_dict.search (chain_dict.run (chain_dict.new capacity) ops) k
      = .error Exn.out_of_range ∧
    (∀ fuel d, lp_dict.run fuel (lp_dict.new capacity) ops = some d →
      lp_dict.search d k = some (.error Exn.out_of_range)) ∧
    (∀ std_hash : Nat → Nat,
      ∃ d, cuckoo_dict.run std_hash (cuckoo_dict.new capacity) ops = some d ∧
        cuckoo_dict.search std_hash d k = .error Exn.out_of_range) := by
  have htmp : ∀ e ∈ List.replicate capacity tmp, e.key ≠ k := by
    intro e he
    rw [(List.mem_replicate.mp he).2]
    exact fun hh => hk hh.symm
  refine ⟨?_, ?_, ?_, ?_⟩
  · apply naive_search_absent
    exact naive_absent_run k ops hops _ (by intro e he; simp [naive_dict.new] at he)
  · apply chain_search_absent
    apply chain_absent_run k ops hops
    intro b hb e he
    simp only [chain_dict.new, List.mem_replicate] at hb
    rw [hb.2] at he
    simp at he
  · intro fuel d hrun
    apply lp_search_absent
    exact lp_absent_run k hk fuel ops hops _ d htmp hrun
  · intro std_hash
    obtain ⟨d, hrun, h1, h2⟩ :=
      cuckoo_absent_run std_hash k hk ops hops (cuckoo_dict.new capacity) htmp htmp
    exact ⟨d, hrun, cuckoo_search_absent std_hash d k hk h1 h2⟩

theorem search_never_set_key_throws_witness :
    (1 ≤ 2 ∧ 3 ≠ INT_MIN ∧ 3 ∉ set_keys [Op.set 1 2, Op.set 2 3, Op.remove 7]) ∧
    naive_dict.search (naive_dict.run (naive_dict.new 2) [Op.set 1 2, Op.set 2 3, Op.remove 7]) 3
      = .error Exn.out_of_range ∧
    chain_dict.search (chain_dict.run (chain_dict.new 2) [Op.set 1 2, Op.set 2 3, Op.remove 7]) 3
      = .error Exn.out_of_range ∧
    (lp_dict.run 2 (lp_dict.new 2) [Op.set 1 2, Op.set 2 3, Op.remove 7]
        = some ⟨2, [⟨2, 3⟩, ⟨1, 2⟩]⟩ ∧
      lp_dict.search ⟨2, [⟨2, 3⟩, ⟨1, 2⟩]⟩ 3 = some (.error Exn.out_of_range)) ∧
    (∃ d, cuckoo_dict.run std_hash_id (cuckoo_dict.new 2) [Op.set 1 2, Op.set 2 3, Op.remove 7]
        = some d ∧
      cuckoo_dict.search std_hash_id d 3 = .error Exn.out_of_range) :=
  have h := search_never_set_key_throws 2 3 [Op.set 1 2, Op.set 2 3, Op.remove 7]
    (by decide) (by decide) (by decide)
  ⟨by decide, h.1, h.2.1, ⟨by decide, h.2.2.1 2 _ (by decide)⟩, h.2.2.2 std_hash_id⟩

/-- C9: in every state of a `naive_dict` or an `lp_dict` reached from construction, a
`remove(k)` that returns without exception is followed by a `search(k)` that throws
`std::out_of_range`. -/
theorem remove_then_search_throws (capacity k : Nat) (ops : List Op)
    (_hcap : 1 ≤ capacity) :
    (∀ d1, naive_dict.remove (naive_dict.run (naive_dict.new capacity) ops) k = .ok d1 →
      naive_dict.search d1 k = .error Exn.out_of_range) ∧
    (∀ fuel d d1, lp_dict.run fuel (lp_dict.new capacity) ops = some d →
      lp_dict.remove d k = some (.ok d1) →
      lp_dict.search d1 k = some (.error Exn.out_of_range)) := by
  constructor
  · intro d1 h
    apply naive_search_after_remove _ d1 k _ h
    exact naive_nodup_run ops (naive_dict.new capacity) (by simp [naive_dict.new])
  · intro fuel d d1 _ h
    exact lp_search_after_remove d d1 k h

theorem remove_then_search_throws_witness :
    1 ≤ 8 ∧
    (naive_dict.remove (naive_dict.run (naive_dict.new 8) [Op.set 1 10, Op.set 5 20]) 1
        = .ok ⟨[⟨5, 20⟩]⟩ ∧
      naive_dict.search ⟨[⟨5, 20⟩]⟩ 1 = .error Exn.out_of_range) ∧
    (lp_dict.run 8 (lp_dict.new 8) [Op.set 1 10, Op.set 5 20]
        = some ⟨8, [tmp, tmp, tmp, ⟨1, 10⟩, ⟨5, 20⟩, tmp, tmp, tmp]⟩ ∧
      lp_dict.remove ⟨8, [tmp, tmp, tmp, ⟨1, 10⟩, ⟨5, 20⟩, tmp, tmp, tmp]⟩ 1
        = some (.ok ⟨8, [tmp, tmp, tmp, tmp, ⟨5, 20⟩, tmp, tmp, tmp]⟩) ∧
      lp_dict.search ⟨8, [tmp, tmp, tmp, tmp, ⟨5, 20⟩, tmp, tmp, tmp]⟩ 1
        = some (.error Exn.out_of_range)) :=
  have h := remove_then_search_throws 8 1 [Op.set 1 10, Op.set 5 20] (by decide)
  ⟨by decide, ⟨by decide, h.1 ⟨[⟨5, 20⟩]⟩ (by decide)⟩,
    ⟨by decide, by decide,
      h.2 8 ⟨8, [tmp, tmp, tmp, ⟨1, 10⟩, ⟨5, 20⟩, tmp, tmp, tmp]⟩
        ⟨8, [tmp, tmp, tmp, tmp, ⟨5, 20⟩, tmp, tmp, tmp]⟩ (by decide) (by decide)⟩⟩

/-- C10: after `set(1, 10); set(1, 20); remove(1)` on a fresh dictionary of capacity 8,
`search(1)` does not throw: a `chain_dict` returns 20 and a `cuckoo_dict` returns 10, the
entry that the second `set` left behind. -/
theorem set_remove_then_search_returns :
    chain_dict.search
        (chain_dict.run (chain_dict.new 8) [Op.set 1 10, Op.set 1 20, Op.remove 1]) 1
      = .ok 20
    ∧ (cuckoo_dict.run std_hash_id (cuckoo_dict.new 8)
          [Op.set 1 10, Op.set 1 20, Op.remove 1]).map
        (fun d => cuckoo_dict.search std_hash_id d 1)
      = some (.ok 10) := by
  decide

/-- C11: the scenario of the specification on each of the four dictionaries of capacity 8:
after `set(k, k+1)` for `k = 1, ..., 8` in ascending order, `search(k)` returns `k+1` for
every `k`; after `remove(5)`, `search(5)` throws `std::out_of_range` and the other seven
keys are still found with their values (`cuckoo_dict` with `std::hash<int>` the
identity). -/
theorem scenario_capacity_eight :
    ([1, 2, 3, 4, 5, 6, 7, 8].map
        (naive_dict.search (naive_dict.run (naive_dict.new 8) (insert_ops [1, 2, 3, 4, 5, 6, 7, 8])))
      = [.ok 2, .ok 3, .ok 4, .ok 5, .ok 6, .ok 7, .ok 8, .ok 9]
    ∧ [1, 2, 3, 4, 5, 6, 7, 8].map
        (naive_dict.search (naive_dict.run (naive_dict.new 8)
          (insert_ops [1, 2, 3, 4, 5, 6, 7, 8] ++ [Op.remove 5])))
      = [.ok 2, .ok 3, .ok 4, .ok 5, .error Exn.out_of_range, .ok 7, .ok 8, .ok 9])
    ∧ ([1, 2, 3, 4, 5, 6, 7, 8].map
        (chain_dict.search (chain_dict.run (chain_dict.new 8) (insert_ops [1, 2, 3, 4, 5, 6, 7, 8])))
      = [.ok 2, .ok 3, .ok 4, .ok 5, .ok 6, .ok 7, .ok 8, .ok 9]
    ∧ [1, 2, 3, 4, 5, 6, 7, 8].map
        (chain_dict.search (chain_dict.run (chain_dict.new 8)
          (insert_ops [1, 2, 3, 4, 5, 6, 7, 8] ++ [Op.remove 5])))
      = [.ok 2, .ok 3, .ok 4, .ok 5, .error Exn.out_of_range, .ok 7, .ok 8, .ok 9])
    ∧ ((lp_dict.run 8 (lp_dict.new 8) (insert_ops [1, 2, 3, 4, 5, 6, 7, 8])).map
        (fun d => [1, 2, 3, 4, 5, 6, 7, 8].map (lp_dict.search d))
      = some [some (.ok 2), some (.ok 3), some (.ok 4), some (.ok 5), some (.ok 6),
          some (.ok 7), some (.ok 8), some (.ok 9)]
    ∧ (lp_dict.run 8 (lp_dict.new 8) (insert_ops [1, 2, 3, 4, 5, 6, 7, 8] ++ [Op.remove 5])).map
        (fun d => [1, 2, 3, 4, 5, 6, 7, 8].map (lp_dict.search d))
      = some [some (.ok 2), some (.ok 3), some (.ok 4), some (.ok 5),
          some (.error Exn.out_of_range), some (.ok 7), some (.ok 8), some (.ok 9)])
    ∧ ((cuckoo_dict.run std_hash_id (cuckoo_dict.new 8) (insert_ops [1, 2, 3, 4, 5, 6, 7, 8])).map
        (fun d => [1, 2, 3, 4, 5, 6, 7, 8].map (cuckoo_dict.search std_hash_id d))
      = some [.ok 2, .ok 3, .ok 4, .ok 5, .ok 6, .ok 7, .ok 8, .ok 9]
    ∧ (cuckoo_dict.run std_hash_id (cuckoo_dict.new 8)
          (insert_ops [1, 2, 3, 4, 5, 6, 7, 8] ++ [Op.remove 5])).map
        (fun d => [1, 2, 3, 4, 5, 6, 7, 8].map (cuckoo_dict.search std_hash_id d))
      = some [.ok 2, .ok 3, .ok 4, .ok 5, .error Exn.out_of_range, .ok 7, .ok 8, .ok 9]) := by
  refine ⟨⟨?_, ?_⟩, ⟨?_, ?_⟩, ⟨?_, ?_⟩, ⟨?_, ?_⟩⟩ <;> decide

/-- C14: an `lp_dict` reached from construction can hold a key in two slots: with capacity 8,
after `set(1, 10); set(5, 20); remove(1); set(5, 30)` the slots 3 and 4 both hold the key 5,
with the values 30 and 20, because the last `set` stops at the slot that `remove` has reset
to the sentinel before it reaches the slot that holds 5; a `remove(5)` then leaves the
key 5 in slot 4. -/
theorem lp_set_after_remove_duplicates_key :
    lp_dict.run 8 (lp_dict.new 8) [Op.set 1 10, Op.set 5 20]
      = some ⟨8, [tmp, tmp, tmp, ⟨1, 10⟩, ⟨5, 20⟩, tmp, tmp, tmp]⟩
    ∧ lp_dict.run 8 (lp_dict.new 8) [Op.set 1 10, Op.set 5 20, Op.remove 1, Op.set 5 30]
      = some ⟨8, [tmp, tmp, tmp, ⟨5, 30⟩, ⟨5, 20⟩, tmp, tmp, tmp]⟩
    ∧ lp_dict.run 8 (lp_dict.new 8)
          [Op.set 1 10, Op.set 5 20, Op.remove 1, Op.set 5 30, Op.remove 5]
      = some ⟨8, [tmp, tmp, tmp, tmp, ⟨5, 20⟩, tmp, tmp, tmp]⟩ := by
  refine ⟨?_, ?_, ?_⟩ <;> decide

/-- C17: removing a key from an `lp_dict` can make another key unreachable: with capacity 8,
after `set(1, 10); set(5, 20)` (both keys start their probes at slot 3) `search(5)` returns
20; `remove(1)` returns and resets slot 3 to the sentinel, and then `search(5)` throws
`std::out_of_range` although slot 4 still holds the key 5. -/
theorem lp_remove_cuts_probe_sequence :
    ∃ d d1 : lp_dict,
      lp_dict.run 8 (lp_dict.new 8) [Op.set 1 10, Op.set 5 20] = some d ∧
      lp_dict.search d 5 = some (.ok 20) ∧
      lp_dict.remove d 1 = some (.ok d1) ∧
      (at_ d1.lpTable 4).key = 5 ∧
      lp_dict.search d1 5 = some (.error Exn.out_of_range) :=
  ⟨⟨8, [tmp, tmp, tmp, ⟨1, 10⟩, ⟨5, 20⟩, tmp, tmp, tmp]⟩,
    ⟨8, [tmp, tmp, tmp, tmp, ⟨5, 20⟩, tmp, tmp, tmp]⟩,
    by decide, by decide, by decide, by decide, by decide⟩

/-- C12: on a fresh `cuckoo_dict` of capacity at least 2, two distinct keys below `2^31`
that collide under `hash_cuckoo_1` are both stored: after `set(k1, v1); set(k2, v2)` the
slot of `hashTable1` holds `(k2, v2)`, the first key has been displaced to its slot of
`hashTable2`, which holds `(k1, v1)`, and both keys are found with their values; this
for every `std::hash`. -/
theorem cuckoo_collision_displaces_first (std_hash : Nat → Nat) (capacity k1 k2 v1 v2 : Nat)
    (hcap : 2 ≤ capacity) (hk1 : k1 < 2147483648) (_hk2 : k2 < 2147483648) (hne : k1 ≠ k2)
    (hcol : cuckoo_dict.hash_cuckoo_1 std_hash (cuckoo_dict.new capacity) k1
      = cuckoo_dict.hash_cuckoo_1 std_hash (cuckoo_dict.new capacity) k2) :
    ∃ d, cuckoo_dict.run std_hash (cuckoo_dict.new capacity) [Op.set k1 v1, Op.set k2 v2] = some d ∧
      at_ d.hashTable1 (cuckoo_dict.hash_cuckoo_1 std_hash d k2) = ⟨k2, v2⟩ ∧
      at_ d.hashTable2 (cuckoo_dict.hash_cuckoo_2 std_hash d k1) = ⟨k1, v1⟩ ∧
      cuckoo_dict.search std_hash d k1 = .ok v1 ∧
      cuckoo_dict.search std_hash d k2 = .ok v2 := by
  have hlim : 0 < log2_floor capacity := log2_floor_pos capacity hcap
  have hs1 : k1 ≠ INT_MIN := by unfold INT_MIN; omega
  have hcol2 : std_hash k1 % capacity = std_hash k2 % capacity := hcol
  have h1 : std_hash k2 % capacity < (List.replicate capacity tmp).length := by
    simpa using Nat.mod_lt _ (by omega : 0 < capacity)
  have h2 : (std_hash k1 / 2) % capacity < (List.replicate capacity tmp).length := by
    simpa using Nat.mod_lt _ (by omega : 0 < capacity)
  have e1 : cuckoo_dict.set std_hash (cuckoo_dict.new capacity) k1 v1
      = some ⟨(List.replicate capacity tmp).set (std_hash k2 % capacity) ⟨k1, v1⟩,
          List.replicate capacity tmp, capacity, log2_floor capacity⟩ := by
    simp only [cuckoo_dict.set, cuckoo_dict.set_loop, cuckoo_dict.new, cuckoo_dict.hash_cuckoo_1,
      at_replicate, hcol2]
    rw [if_pos hlim, if_pos (by rfl)]
  have e2 : cuckoo_dict.set std_hash
        ⟨(List.replicate capacity tmp).set (std_hash k2 % capacity) ⟨k1, v1⟩,
          List.replicate capacity tmp, capacity, log2_floor capacity⟩ k2 v2
      = some ⟨((List.replicate capacity tmp).set (std_hash k2 % capacity) ⟨k1, v1⟩).set
            (std_hash k2 % capacity) ⟨k2, v2⟩,
          (List.replicate capacity tmp).set ((std_hash k1 / 2) % capacity) ⟨k1, v1⟩,
          capacity, log2_floor capacity⟩ := by
    simp only [cuckoo_dict.set, cuckoo_dict.set_loop, cuckoo_dict.hash_cuckoo_1,
      cuckoo_dict.hash_cuckoo_2, at_replicate, at_set_self _ _ _ h1]
    rw [if_pos hlim, if_neg hs1, if_pos (by rfl)]
  have a1 : at_ (((List.replicate capacity tmp).set (std_hash k2 % capacity) ⟨k1, v1⟩).set
      (std_hash k2 % capacity) ⟨k2, v2⟩) (std_hash k2 % capacity) = ⟨k2, v2⟩ :=
    at_set_self _ _ _ (by simpa using h1)
  have a2 : at_ ((List.replicate capacity tmp).set ((std_hash k1 / 2) % capacity) ⟨k1, v1⟩)
      ((std_hash k1 / 2) % capacity) = ⟨k1, v1⟩ := at_set_self _ _ _ h2
  refine ⟨⟨((List.replicate capacity tmp).set (std_hash k2 % capacity) ⟨k1, v1⟩).set
            (std_hash k2 % capacity) ⟨k2, v2⟩,
          (List.replicate capacity tmp).set ((std_hash k1 / 2) % capacity) ⟨k1, v1⟩,
          capacity, log2_floor capacity⟩, ?_, a1, a2, ?_, ?_⟩
  · simp only [cuckoo_dict.run, cuckoo_dict.step, e1, e2]
  · simp only [cuckoo_dict.search, cuckoo_dict.hash_cuckoo_1, cuckoo_dict.hash_cuckoo_2, hcol2,
      a1, a2]
    rw [if_neg (Ne.symm hne), if_pos trivial]
  · simp only [cuckoo_dict.search, cuckoo_dict.hash_cuckoo_1, a1]
    rw [if_pos trivial]

theorem cuckoo_collision_displaces_first_witness :
    (2 ≤ 4 ∧ 1 < 2147483648 ∧ 5 < 2147483648 ∧ 1 ≠ 5 ∧
      cuckoo_dict.hash_cuckoo_1 std_hash_id (cuckoo_dict.new 4) 1
        = cuckoo_dict.hash_cuckoo_1 std_hash_id (cuckoo_dict.new 4) 5) ∧
    ∃ d, cuckoo_dict.run std_hash_id (cuckoo_dict.new 4) [Op.set 1 10, Op.set 5 20] = some d ∧
      at_ d.hashTable1 (cuckoo_dict.hash_cuckoo_1 std_hash_id d 5) = ⟨5, 20⟩ ∧
      at_ d.hashTable2 (cuckoo_dict.hash_cuckoo_2 std_hash_id d 1) = ⟨1, 10⟩ ∧
      cuckoo_dict.search std_hash_id d 1 = .ok 10 ∧
      cuckoo_dict.search std_hash_id d 5 = .ok 20 :=
  ⟨by decide, cuckoo_collision_displaces_first std_hash_id 4 1 5 10 20
    (by decide) (by decide) (by decide) (by decide) (by decide)⟩

/-- C20: a fresh `cuckoo_dict` reports the sentinel key as present: `search(0x80000000)`
reads a slot of `hashTable1`, finds the key of the empty slot equal to the key searched for
and returns the value 0, and `remove(0x80000000)` returns normally and leaves the tables as
they are; this for every capacity from 1 on and every `std::hash`. -/
theorem cuckoo_fresh_holds_sentinel (std_hash : Nat → Nat) (capacity : Nat)
    (hcap : 1 ≤ capacity) :
    cuckoo_dict.hash_cuckoo_1 std_hash (cuckoo_dict.new capacity) INT_MIN
      < (cuckoo_dict.new capacity).hashTable1.length ∧
    cuckoo_dict.search std_hash (cuckoo_dict.new capacity) INT_MIN = .ok 0 ∧
    cuckoo_dict.remove std_hash (cuckoo_dict.new capacity) INT_MIN
      = .ok (cuckoo_dict.new capacity) := by
  refine ⟨?_, ?_, ?_⟩
  · simp only [cuckoo_dict.new, cuckoo_dict.hash_cuckoo_1, List.length_replicate]
    exact Nat.mod_lt _ (by omega)
  · simp only [cuckoo_dict.search, cuckoo_dict.new, at_replicate]
    rw [if_pos (by rfl)]
    rfl
  · simp only [cuckoo_dict.remove, cuckoo_dict.new, at_replicate]
    rw [if_pos (by rfl), set_replicate_same]

theorem cuckoo_fresh_holds_sentinel_witness :
    1 ≤ 1 ∧
    cuckoo_dict.search std_hash_id (cuckoo_dict.new 1) INT_MIN = .ok 0 ∧
    cuckoo_dict.remove std_hash_id (cuckoo_dict.new 1) INT_MIN = .ok (cuckoo_dict.new 1) :=
  ⟨by decide, (cuckoo_fresh_holds_sentinel std_hash_id 1 (by decide)).2⟩

/-- C13: the two polynomial hash functions, computed with 32-bit wrap-around at every
product and sum, equal the polynomials evaluated over the integers and reduced modulo
`2^32` once: `(10 + 20 k) mod 2^32` and `(5 + 6 k + 7 k^2 + 8 k^3 + 9 k^4) mod 2^32`. -/
theorem poly_hash_closed_forms (key : Nat) :
    poly2_hash_func.hash key = (10 + 20 * key) % 2 ^ 32 ∧
    poly5_hash_func.hash key
      = (5 + 6 * key + 7 * key ^ 2 + 8 * key ^ 3 + 9 * key ^ 4) % 2 ^ 32 := by
  have e : (2 : Nat) ^ 32 = 4294967296 := by norm_num
  rw [e]
  exact ⟨poly2_closed_form key, poly5_closed_form key⟩

/-- C18: the low-order bits of the polynomial hashes do not depend on the key:
`poly2_hash_func::hash` is 2 modulo 4 and `poly5_hash_func::hash` is odd. Hence with a
capacity divisible by 4 the bucket index of a `chain_dict` is 2 modulo 4 and every bucket
with another index stays empty whatever the calls, and with an even capacity the start
index of an `lp_dict` is odd. -/
theorem poly_hash_low_bits (key capacity : Nat) :
    poly2_hash_func.hash key % 4 = 2 ∧
    poly5_hash_func.hash key % 2 = 1 ∧
    (4 ∣ capacity →
      (poly2_hash_func.hash key % capacity) % 4 = 2 ∧
      ∀ (ops : List Op) (i : Nat), i % 4 ≠ 2 →
        (chain_dict.run (chain_dict.new capacity) ops).chainingTable.getD i [] = []) ∧
    (2 ∣ capacity → (poly5_hash_func.hash key % capacity) % 2 = 1) := by
  refine ⟨poly2_mod_four key, poly5_mod_two key, ?_, ?_⟩
  · intro h4
    have hidx : ∀ key, (poly2_hash_func.hash key % capacity) % 4 = 2 := by
      intro key
      rw [Nat.mod_mod_of_dvd _ h4]
      exact poly2_mod_four key
    refine ⟨hidx key, ?_⟩
    intro ops i hi
    rw [chain_other_bucket_run i ops (chain_dict.new capacity)
      (by intro key hh; apply hi; rw [hh]; exact hidx key)]
    rcases bucket_mem_or_nil (chain_dict.new capacity).chainingTable i with hm | hn
    · simp only [chain_dict.new, List.mem_replicate] at hm
      exact hm.2
    · exact hn
  · intro h2
    rw [Nat.mod_mod_of_dvd _ h2]
    exact poly5_mod_two key

theorem poly_hash_low_bits_witness :
    4 ∣ 8 ∧ 2 ∣ 8 ∧
    (poly2_hash_func.hash 3 % 8) % 4 = 2 ∧
    (chain_dict.run (chain_dict.new 8) [Op.set 1 10, Op.set 2 20]).chainingTable.getD 1 [] = [] ∧
    (poly5_hash_func.hash 3 % 8) % 2 = 1 :=
  have h := poly_hash_low_bits 3 8
  ⟨by decide, by decide, (h.2.2.1 (by decide)).1,
    (h.2.2.1 (by decide)).2 [Op.set 1 10, Op.set 2 20] 1 (by decide), h.2.2.2 (by decide)⟩

/-- C16: in every state of a `naive_dict`, `chain_dict` or `cuckoo_dict` reached from
construction, a call `remove(k)`, whether it returns or throws, leaves the outcome of
`search(k2)` unchanged for every other key `k2`, both keys being different from the
sentinel. -/
theorem remove_keeps_other_keys (capacity k k2 : Nat) (ops : List Op)
    (_hcap : 1 ≤ capacity) (hne : k ≠ k2) (hk : k ≠ INT_MIN) (hk2 : k2 ≠ INT_MIN) :
    naive_dict.search (naive_dict.step (naive_dict.run (naive_dict.new capacity) ops)
        (Op.remove k)) k2
      = naive_dict.search (naive_dict.run (naive_dict.new capacity) ops) k2 ∧
    chain_dict.search (chain_dict.step (chain_dict.run (chain_dict.new capacity) ops)
        (Op.remove k)) k2
      = chain_dict.search (chain_dict.run (chain_dict.new capacity) ops) k2 ∧
    ∀ std_hash : Nat → Nat,
      ∃ d d1, cuckoo_dict.run std_hash (cuckoo_dict.new capacity) ops = some d ∧
        cuckoo_dict.step std_hash d (Op.remove k) = some d1 ∧
        cuckoo_dict.search std_hash d1 k2 = cuckoo_dict.search std_hash d k2 := by
  refine ⟨naive_remove_other _ k k2 hne, chain_remove_other _ k k2 hne, ?_⟩
  intro std_hash
  obtain ⟨d, hd⟩ := cuckoo_run_total std_hash ops (cuckoo_dict.new capacity)
  obtain ⟨d1, h1, h2⟩ := cuckoo_remove_other std_hash d k k2 hne hk hk2
  exact ⟨d, d1, hd, h1, h2⟩

theorem remove_keeps_other_keys_witness :
    (1 ≤ 8 ∧ 1 ≠ 9 ∧ 1 ≠ INT_MIN ∧ 9 ≠ INT_MIN) ∧
    naive_dict.search (naive_dict.step (naive_dict.run (naive_dict.new 8)
        [Op.set 1 10, Op.set 9 20]) (Op.remove 1)) 9
      = naive_dict.search (naive_dict.run (naive_dict.new 8) [Op.set 1 10, Op.set 9 20]) 9 ∧
    chain_dict.search (chain_dict.step (chain_dict.run (chain_dict.new 8)
        [Op.set 1 10, Op.set 9 20]) (Op.remove 1)) 9
      = chain_dict.search (chain_dict.run (chain_dict.new 8) [Op.set 1 10, Op.set 9 20]) 9 ∧
    ∃ d d1, cuckoo_dict.run std_hash_id (cuckoo_dict.new 8) [Op.set 1 10, Op.set 9 20] = some d ∧
      cuckoo_dict.step std_hash_id d (Op.remove 1) = some d1 ∧
      cuckoo_dict.search std_hash_id d1 9 = cuckoo_dict.search std_hash_id d 9 :=
  have h := remove_keeps_other_keys 8 1 9 [Op.set 1 10, Op.set 9 20]
    (by decide) (by decide) (by decide) (by decide)
  ⟨by decide, h.1, h.2.1, h.2.2 std_hash_id⟩

/-- C15: `lp_dict::search` returns or throws for every table and every key, a table
without any sentinel slot included. It returns the value of the first slot of the probe
sequence whose key is `k` when no slot up to and including that one holds the sentinel;
when there is no slot with key `k` that comes before every sentinel slot it throws
`std::out_of_range`, and so it does on a full table that does not hold `k`. -/
theorem lp_search_specification (d : lp_dict) (k : Nat) (hcap : 1 ≤ d.capacity_) :
    (∃ r, lp_dict.search d k = some r) ∧
    (∀ n, n < d.capacity_ →
      (at_ d.lpTable (lp_dict.probe d k n)).key = k →
      (∀ j, j < n → (at_ d.lpTable (lp_dict.probe d k j)).key ≠ k) →
      (∀ j, j ≤ n → (at_ d.lpTable (lp_dict.probe d k j)).key ≠ INT_MIN) →
      lp_dict.search d k = some (.ok (at_ d.lpTable (lp_dict.probe d k n)).value)) ∧
    ((¬ ∃ n, n < d.capacity_ ∧ (at_ d.lpTable (lp_dict.probe d k n)).key = k ∧
        ∀ j, j ≤ n → (at_ d.lpTable (lp_dict.probe d k j)).key ≠ INT_MIN) →
      lp_dict.search d k = some (.error Exn.out_of_range)) ∧
    ((∀ i, i < d.capacity_ → (at_ d.lpTable i).key ≠ INT_MIN ∧ (at_ d.lpTable i).key ≠ k) →
      lp_dict.search d k = some (.error Exn.out_of_range)) := by
  have hpos : 0 < d.capacity_ := by omega
  have hstart : poly5_hash_func.hash k % d.capacity_ < d.capacity_ := Nat.mod_lt _ hpos
  have hthird : (¬ ∃ n, n < d.capacity_ ∧ (at_ d.lpTable (lp_dict.probe d k n)).key = k ∧
        ∀ j, j ≤ n → (at_ d.lpTable (lp_dict.probe d k j)).key ≠ INT_MIN) →
      lp_dict.search d k = some (.error Exn.out_of_range) := by
    intro hno
    rcases lp_search_cases d k with he | ⟨p, hl, hkey, hs, _⟩
    · exact he
    · exfalso
      obtain ⟨n, hn, hp, hbusy⟩ := lp_bounded_loop_path d k p _ _ _ hstart (Nat.zero_le _) hl
      have hlt : n < d.capacity_ := by
        by_contra hge
        have hn2 : n = d.capacity_ := by omega
        have hb0 := hbusy 0 (by omega)
        rw [Nat.add_zero, Nat.mod_eq_of_lt hstart] at hb0
        rw [hn2, Nat.add_mod_right, Nat.mod_eq_of_lt hstart] at hp
        rw [hp] at hkey
        exact hb0.2 hkey
      apply hno
      refine ⟨n, hlt, ?_, ?_⟩
      · show (at_ d.lpTable ((poly5_hash_func.hash k % d.capacity_ + n) % d.capacity_)).key = k
        rw [← hp]; exact hkey
      · intro j hj
        by_cases hjn : j < n
        · exact (hbusy j hjn).1
        · have : j = n := by omega
          subst this
          show (at_ d.lpTable ((poly5_hash_func.hash k % d.capacity_ + j) % d.capacity_)).key
            ≠ INT_MIN
          rw [← hp, hkey]; exact hs
  refine ⟨?_, ?_, hthird, ?_⟩
  · rcases lp_search_cases d k with he | ⟨p, _, _, _, hsv⟩
    · exact ⟨_, he⟩
    · exact ⟨_, hsv⟩
  · intro n hn hkey hfirst hnosent
    have hl := lp_bounded_loop_found d k n (d.capacity_ + 1)
      (poly5_hash_func.hash k % d.capacity_) 0 hstart
      (fun j hj => ⟨hnosent j (by omega), hfirst j hj⟩)
      (fun hb => hb.2 hkey) (by omega) (by omega)
    rw [lp_search_of_loop_ok d k _ hl]
    exact if_pos (hnosent n (Nat.le_refl n))
  · intro hfull
    apply hthird
    rintro ⟨n, _, hkey, _⟩
    exact (hfull (lp_dict.probe d k n) (Nat.mod_lt _ hpos)).2 hkey

theorem lp_search_specification_witness :
    (1 ≤ (⟨8, [tmp, tmp, tmp, ⟨1, 10⟩, ⟨5, 20⟩, tmp, tmp, tmp]⟩ : lp_dict).capacity_ ∧
      lp_dict.probe ⟨8, [tmp, tmp, tmp, ⟨1, 10⟩, ⟨5, 20⟩, tmp, tmp, tmp]⟩ 5 1 = 4 ∧
      lp_dict.search ⟨8, [tmp, tmp, tmp, ⟨1, 10⟩, ⟨5, 20⟩, tmp, tmp, tmp]⟩ 5
        = some (.ok 20)) ∧
    (1 ≤ (⟨2, [⟨2, 3⟩, ⟨1, 2⟩]⟩ : lp_dict).capacity_ ∧
      lp_dict.search ⟨2, [⟨2, 3⟩, ⟨1, 2⟩]⟩ 7 = some (.error Exn.out_of_range)) :=
  ⟨⟨by decide, by decide,
      (lp_search_specification ⟨8, [tmp, tmp, tmp, ⟨1, 10⟩, ⟨5, 20⟩, tmp, tmp, tmp]⟩ 5
        (by decide)).2.1 1 (by decide) (by decide) (by decide) (by decide)⟩,
    ⟨by decide,
      (lp_search_specification ⟨2, [⟨2, 3⟩, ⟨1, 2⟩]⟩ 7 (by decide)).2.2.2 (by decide)⟩⟩

end hashes
